import Mathlib

/-!
Verification of the relationship graph engine of the FamilyTree repository.

The definitions below are a shallow embedding of the TypeScript sources
src/utils/relationshipUtils.ts, src/utils/reportUtils.ts and
src/utils/personUtils.ts over the data model of src/types.ts.

Modelling conventions:
  - optional arrays (parentIds, childrenIds, marriages) are total lists,
    the absent value being the empty list (the source guards every use
    with a default of the empty array);
  - the JavaScript Set of visited ids is a list of ids with membership
    tests (only membership is ever observed);
  - the JavaScript Map from ids to persons used for the ancestor closure
    is an association list (only find-by-key is ever observed);
  - every while loop over a BFS queue is a well-founded recursion; the
    termination measure counts the ids that can still be enqueued but
    have not been visited, which is exactly the visited-set argument of
    the source;
  - unused descriptive fields of Person (dates, notes, photos and so on)
    are elided; they are never read by the functions verified here.
-/

inductive Gender
  | Male
  | Female
  | Other
deriving DecidableEq

inductive MarriageStatus
  | Married
  | Divorced
  | Widowed
  | Unknown
deriving DecidableEq

structure Marriage where
  spouseId : String
  status : MarriageStatus := MarriageStatus.Unknown
deriving DecidableEq

structure Person where
  id : String
  firstName : String := ""
  lastName : Option String := none
  familyCast : Option String := none
  gender : Gender := Gender.Other
  parentIds : List String := []
  childrenIds : List String := []
  marriages : List Marriage := []
deriving DecidableEq

/-- Embeds personUtils.getFullName: the defined name parts that are not
the empty string, joined by single spaces (the Boolean filter of the
source drops both undefined and empty strings). -/
def getFullName (person : Person) : String :=
  String.intercalate " "
    (([some person.firstName, person.lastName, person.familyCast].filterMap id).filter
      (fun s => s ≠ ""))

/-- Embeds the local helper getPersonById of relationshipUtils.ts. -/
def getPersonById (id : String) (allPeople : List Person) : Option Person :=
  allPeople.find? (fun p => p.id == id)

/-! Termination measure infrastructure for the BFS loops.  The measure of
a loop state is the number of ids that are enqueued or still enqueueable
but not yet visited, scaled by a bound on the number of pushes a single
iteration can perform, plus the queue length. -/

def pot (U : Finset String) (V : List String) : Nat := (U \ V.toFinset).card

theorem pot_le_of_subset {U U' : Finset String} {V V' : List String}
    (hU : U' ⊆ U) (hV : ∀ x ∈ V, x ∈ V') : pot U' V' ≤ pot U V := by
  apply Finset.card_le_card
  intro x hx
  simp only [pot, Finset.mem_sdiff, List.mem_toFinset] at *
  exact ⟨hU hx.1, fun h => hx.2 (hV x h)⟩

theorem pot_lt_of_visit {U U' : Finset String} {V V' : List String} {x : String}
    (hU : U' ⊆ U) (hV : ∀ y ∈ V, y ∈ V') (hxU : x ∈ U) (hxV : x ∉ V) (hxV' : x ∈ V') :
    pot U' V' < pot U V := by
  apply Finset.card_lt_card
  rw [Finset.ssubset_iff_of_subset]
  · refine ⟨x, ?_, ?_⟩
    · simp only [Finset.mem_sdiff, List.mem_toFinset]
      exact ⟨hxU, hxV⟩
    · simp only [Finset.mem_sdiff, List.mem_toFinset, not_and, not_not]
      intro _
      exact hxV'
  · intro y hy
    simp only [Finset.mem_sdiff, List.mem_toFinset] at *
    exact ⟨hU hy.1, fun h => hy.2 (hV y h)⟩

theorem bfs_measure_skip {p' l' p l c : Nat} (h1 : p' ≤ p) (h2 : l' < l) :
    p' * c + l' < p * c + l := by
  have := Nat.mul_le_mul_right c h1
  omega

theorem bfs_measure_visit {p' l' p l c : Nat} (h1 : p' < p) (h2 : l' < l + c) :
    p' * c + l' < p * c + l := by
  have h3 : p' + 1 ≤ p := h1
  have h4 : (p' + 1) * c ≤ p * c := Nat.mul_le_mul_right c h3
  have h5 : p' * c + c = (p' + 1) * c := by ring
  omega

theorem le_sum_of_mem {l : List Nat} {x : Nat} (h : x ∈ l) : x ≤ l.sum := by
  induction l with
  | nil => cases h
  | cons a t ih =>
    rcases List.mem_cons.mp h with rfl | h2
    · simp
    · have := ih h2
      simp only [List.sum_cons]
      omega

/-- All ids that occur as a parent reference anywhere in the collection:
a superset of every id a parent-walk can enqueue. -/
def parentUniverse (allPeople : List Person) : Finset String :=
  (allPeople.flatMap (fun p => p.parentIds)).toFinset

/-- Strict bound on the number of parent ids a single person of the
collection can contribute to a queue. -/
def parentBound (allPeople : List Person) : Nat :=
  (allPeople.map (fun p => p.parentIds.length)).sum + 1

theorem parentIds_subset_universe {p : Person} {allPeople : List Person}
    (hp : p ∈ allPeople) : ∀ q ∈ p.parentIds, q ∈ parentUniverse allPeople := by
  intro q hq
  simp only [parentUniverse, List.mem_toFinset, List.mem_flatMap]
  exact ⟨p, hp, hq⟩

theorem parentIds_length_lt_bound {p : Person} {allPeople : List Person}
    (hp : p ∈ allPeople) : p.parentIds.length < parentBound allPeople := by
  have h1 : p.parentIds.length ∈ allPeople.map (fun q => q.parentIds.length) :=
    List.mem_map.mpr ⟨p, hp, rfl⟩
  have h2 := le_sum_of_mem h1
  simp only [parentBound]
  omega

/-- All ids that occur as a child reference anywhere in the collection. -/
def childUniverse (allPeople : List Person) : Finset String :=
  (allPeople.flatMap (fun p => p.childrenIds)).toFinset

def childBound (allPeople : List Person) : Nat :=
  (allPeople.map (fun p => p.childrenIds.length)).sum + 1

theorem childrenIds_subset_universe {p : Person} {allPeople : List Person}
    (hp : p ∈ allPeople) : ∀ q ∈ p.childrenIds, q ∈ childUniverse allPeople := by
  intro q hq
  simp only [childUniverse, List.mem_toFinset, List.mem_flatMap]
  exact ⟨p, hp, hq⟩

theorem childrenIds_length_lt_bound {p : Person} {allPeople : List Person}
    (hp : p ∈ allPeople) : p.childrenIds.length < childBound allPeople := by
  have h1 : p.childrenIds.length ∈ allPeople.map (fun q => q.childrenIds.length) :=
    List.mem_map.mpr ⟨p, hp, rfl⟩
  have h2 := le_sum_of_mem h1
  simp only [childBound]
  omega

/-- Embeds the while loop of getAncestors (relationshipUtils.ts).  The
source dequeues an id, skips it when already visited or empty, otherwise
marks it visited, records the person when the lookup succeeds and pushes
the unvisited parent ids. -/
def getAncestorsLoop (allPeople : List Person) (queue : List String) (visited : List String)
    (ancestors : List Person) : List Person :=
  match queue with
  | [] => ancestors
  | personId :: rest =>
    if h : personId ∈ visited ∨ personId = "" then
      getAncestorsLoop allPeople rest visited ancestors
    else
      match hp : getPersonById personId allPeople with
      | none => getAncestorsLoop allPeople rest (personId :: visited) ancestors
      | some p =>
        getAncestorsLoop allPeople
          (rest ++ p.parentIds.filter (fun q => decide (q ∉ personId :: visited)))
          (personId :: visited) (ancestors ++ [p])
termination_by
  pot (queue.toFinset ∪ parentUniverse allPeople) visited * parentBound allPeople + queue.length
decreasing_by
  · apply bfs_measure_skip
    · apply pot_le_of_subset
      · apply Finset.union_subset_union_left
        rw [List.toFinset_cons]
        exact Finset.subset_insert _ _
      · intro x hx; exact hx
    · simp
  · apply bfs_measure_visit
    · apply pot_lt_of_visit (x := personId)
      · apply Finset.union_subset_union_left
        rw [List.toFinset_cons]
        exact Finset.subset_insert _ _
      · intro y hy; exact List.mem_cons_of_mem _ hy
      · apply Finset.mem_union_left
        simp
      · exact fun hmem => h (Or.inl hmem)
      · exact List.mem_cons_self _ _
    · simp; omega
  · apply bfs_measure_visit
    · apply pot_lt_of_visit (x := personId)
      · rw [List.toFinset_append]
        intro y hy
        rcases Finset.mem_union.mp hy with hy1 | hy2
        · rcases Finset.mem_union.mp hy1 with hy3 | hy4
          · apply Finset.mem_union_left
            rw [List.toFinset_cons]
            exact Finset.mem_insert_of_mem hy3
          · apply Finset.mem_union_right
            rw [List.mem_toFinset] at hy4
            exact parentIds_subset_universe (List.mem_of_find?_eq_some hp) _
              (List.mem_of_mem_filter hy4)
        · exact Finset.mem_union_right _ hy2
      · intro y hy; exact List.mem_cons_of_mem _ hy
      · apply Finset.mem_union_left
        simp
      · exact fun hmem => h (Or.inl hmem)
      · exact List.mem_cons_self _ _
    · have hlen : (p.parentIds.filter (fun q => decide (q ∉ personId :: visited))).length ≤
          p.parentIds.length := List.length_filter_le _ _
      have hb := parentIds_length_lt_bound (List.mem_of_find?_eq_some hp)
      simp only [List.length_append, List.length_cons]
      omega

/-- Embeds getAncestors of relationshipUtils.ts. -/
def getAncestors (person : Person) (allPeople : List Person) : List Person :=
  getAncestorsLoop allPeople person.parentIds [] []

/-- Embeds the while loop of getDescendants (relationshipUtils.ts),
symmetric to the ancestor walk over childrenIds. -/
def getDescendantsLoop (allPeople : List Person) (queue : List String) (visited : List String)
    (descendants : List Person) : List Person :=
  match queue with
  | [] => descendants
  | personId :: rest =>
    if h : personId ∈ visited ∨ personId = "" then
      getDescendantsLoop allPeople rest visited descendants
    else
      match hp : getPersonById personId allPeople with
      | none => getDescendantsLoop allPeople rest (personId :: visited) descendants
      | some p =>
        getDescendantsLoop allPeople
          (rest ++ p.childrenIds.filter (fun q => decide (q ∉ personId :: visited)))
          (personId :: visited) (descendants ++ [p])
termination_by
  pot (queue.toFinset ∪ childUniverse allPeople) visited * childBound allPeople + queue.length
decreasing_by
  · apply bfs_measure_skip
    · apply pot_le_of_subset
      · apply Finset.union_subset_union_left
        rw [List.toFinset_cons]
        exact Finset.subset_insert _ _
      · intro x hx; exact hx
    · simp
  · apply bfs_measure_visit
    · apply pot_lt_of_visit (x := personId)
      · apply Finset.union_subset_union_left
        rw [List.toFinset_cons]
        exact Finset.subset_insert _ _
      · intro y hy; exact List.mem_cons_of_mem _ hy
      · apply Finset.mem_union_left
        simp
      · exact fun hmem => h (Or.inl hmem)
      · exact List.mem_cons_self _ _
    · simp; omega
  · apply bfs_measure_visit
    · apply pot_lt_of_visit (x := personId)
      · rw [List.toFinset_append]
        intro y hy
        rcases Finset.mem_union.mp hy with hy1 | hy2
        · rcases Finset.mem_union.mp hy1 with hy3 | hy4
          · apply Finset.mem_union_left
            rw [List.toFinset_cons]
            exact Finset.mem_insert_of_mem hy3
          · apply Finset.mem_union_right
            rw [List.mem_toFinset] at hy4
            exact childrenIds_subset_universe (List.mem_of_find?_eq_some hp) _
              (List.mem_of_mem_filter hy4)
        · exact Finset.mem_union_right _ hy2
      · intro y hy; exact List.mem_cons_of_mem _ hy
      · apply Finset.mem_union_left
        simp
      · exact fun hmem => h (Or.inl hmem)
      · exact List.mem_cons_self _ _
    · have hlen : (p.childrenIds.filter (fun q => decide (q ∉ personId :: visited))).length ≤
          p.childrenIds.length := List.length_filter_le _ _
      have hb := childrenIds_length_lt_bound (List.mem_of_find?_eq_some hp)
      simp only [List.length_append, List.length_cons]
      omega

/-- Embeds getDescendants of relationshipUtils.ts. -/
def getDescendants (person : Person) (allPeople : List Person) : List Person :=
  getDescendantsLoop allPeople person.childrenIds [] []

/-- Insertion into the insertion-ordered id set (JavaScript Set.add). -/
def setAdd (l : List String) (x : String) : List String :=
  if x ∈ l then l else l ++ [x]

/-- Embeds getAllBloodRelativesIds of relationshipUtils.ts: the focal
person, the ancestors, and every descendant of each of those, as an
insertion-ordered id set. -/
def getAllBloodRelativesIds (focalPerson : Person) (allPeople : List Person) : List String :=
  let allProgenitors := focalPerson :: getAncestors focalPerson allPeople
  allProgenitors.foldl
    (fun acc progenitor =>
      (getDescendants progenitor allPeople).foldl
        (fun acc2 descendant => setAdd acc2 descendant.id)
        (setAdd acc progenitor.id))
    []

/-- Embeds the while loop of getAncestorsHierarchically (reportUtils.ts):
the ancestor walk annotated with the BFS level. -/
def getAncestorsHierarchicallyLoop (allPeople : List Person) (queue : List (String × Nat))
    (visited : List String) (results : List (Person × Nat)) : List (Person × Nat) :=
  match queue with
  | [] => results
  | (personId, level) :: rest =>
    if h : personId = "" ∨ personId ∈ visited then
      getAncestorsHierarchicallyLoop allPeople rest visited results
    else
      match hp : getPersonById personId allPeople with
      | none => getAncestorsHierarchicallyLoop allPeople rest (personId :: visited) results
      | some p =>
        getAncestorsHierarchicallyLoop allPeople
          (rest ++ (p.parentIds.filter (fun q => decide (q ∉ personId :: visited))).map
            (fun q => (q, level + 1)))
          (personId :: visited) (results ++ [(p, level)])
termination_by
  pot ((queue.map Prod.fst).toFinset ∪ parentUniverse allPeople) visited * parentBound allPeople
    + queue.length
decreasing_by
  · apply bfs_measure_skip
    · apply pot_le_of_subset
      · apply Finset.union_subset_union_left
        simp only [List.map_cons, List.toFinset_cons]
        exact Finset.subset_insert _ _
      · intro x hx; exact hx
    · simp
  · apply bfs_measure_visit
    · apply pot_lt_of_visit (x := personId)
      · apply Finset.union_subset_union_left
        simp only [List.map_cons, List.toFinset_cons]
        exact Finset.subset_insert _ _
      · intro y hy; exact List.mem_cons_of_mem _ hy
      · apply Finset.mem_union_left
        simp
      · exact fun hmem => h (Or.inr hmem)
      · exact List.mem_cons_self _ _
    · simp; omega
  · apply bfs_measure_visit
    · apply pot_lt_of_visit (x := personId)
      · simp only [List.map_append, List.toFinset_append, List.map_map]
        intro y hy
        rcases Finset.mem_union.mp hy with hy1 | hy2
        · rcases Finset.mem_union.mp hy1 with hy3 | hy4
          · apply Finset.mem_union_left
            simp only [List.map_cons, List.toFinset_cons]
            exact Finset.mem_insert_of_mem hy3
          · apply Finset.mem_union_right
            rw [List.mem_toFinset] at hy4
            rcases List.mem_map.mp hy4 with ⟨q, hq, hqeq⟩
            have : y = q := by
              simpa using hqeq.symm
            subst this
            exact parentIds_subset_universe (List.mem_of_find?_eq_some hp) _
              (List.mem_of_mem_filter hq)
        · exact Finset.mem_union_right _ hy2
      · intro y hy; exact List.mem_cons_of_mem _ hy
      · apply Finset.mem_union_left
        simp
      · exact fun hmem => h (Or.inr hmem)
      · exact List.mem_cons_self _ _
    · have hlen : ((p.parentIds.filter (fun q => decide (q ∉ personId :: visited))).map
          (fun q => (q, level + 1))).length ≤ p.parentIds.length := by
        rw [List.length_map]
        exact List.length_filter_le _ _
      have hb := parentIds_length_lt_bound (List.mem_of_find?_eq_some hp)
      simp only [List.length_append, List.length_cons]
      omega

/-- Embeds getAncestorsHierarchically of reportUtils.ts.  The undefined
guard on parentIds of the source never fires in the total model, where
an absent array is the empty list. -/
def getAncestorsHierarchically (person : Person) (allPeople : List Person) :
    List (Person × Nat) :=
  getAncestorsHierarchicallyLoop allPeople (person.parentIds.map (fun id => (id, 1))) [] []

/-! The lowest-common-ancestor resolver findLcaAndPaths and its helpers. -/

structure LcaResult where
  lca : Person
  path1 : List Person
  path2 : List Person
deriving DecidableEq

/-- Embeds the inner for-loop over the parent ids of the current person
inside getPathToAncestor: each unvisited parent id is marked visited,
looked up, and either ends the search (when it is the target ancestor)
or is enqueued with the extended path.  Returns the found path if any,
the updated visited set, and the queue additions in push order. -/
def processParents (allPeople : List Person) (endId : String) (path : List Person) :
    List String → List String →
      Option (List Person) × List String × List (String × List Person)
  | [], visited => (none, visited, [])
  | parentId :: restIds, visited =>
    if parentId ∈ visited then processParents allPeople endId path restIds visited
    else
      match getPersonById parentId allPeople with
      | none => processParents allPeople endId path restIds (parentId :: visited)
      | some parentPerson =>
        let newPath := path ++ [parentPerson]
        if parentId = endId then (some newPath, parentId :: visited, [])
        else
          match processParents allPeople endId path restIds (parentId :: visited) with
          | (res, visited2, adds) => (res, visited2, (parentId, newPath) :: adds)

theorem processParents_visited_mono {allPeople : List Person} {endId : String}
    {path : List Person} {ids visited : List String} {res visited2 adds}
    (h : processParents allPeople endId path ids visited = (res, visited2, adds)) :
    ∀ x ∈ visited, x ∈ visited2 := by
  induction ids generalizing visited res visited2 adds with
  | nil =>
    simp only [processParents] at h
    cases h
    exact fun x hx => hx
  | cons i rest ih =>
    simp only [processParents] at h
    split at h
    · exact ih h
    · split at h
      · intro x hx
        exact ih h x (List.mem_cons_of_mem _ hx)
      · split at h
        · cases h
          intro x hx
          exact List.mem_cons_of_mem _ hx
        · injection h with h1 h2
          injection h2 with h2a h2b
          intro x hx
          rw [← h2a]
          have heq : processParents allPeople endId path rest (i :: visited) =
              ((processParents allPeople endId path rest (i :: visited)).1,
               (processParents allPeople endId path rest (i :: visited)).2.1,
               (processParents allPeople endId path rest (i :: visited)).2.2) := rfl
          exact ih heq x (List.mem_cons_of_mem _ hx)

theorem processParents_adds {allPeople : List Person} {endId : String}
    {path : List Person} {ids visited : List String} {res visited2 adds}
    (h : processParents allPeople endId path ids visited = (res, visited2, adds)) :
    ∀ pr ∈ adds, pr.1 ∈ ids ∧ pr.1 ∉ visited ∧ pr.1 ∈ visited2 ∧
      ∃ pp, getPersonById pr.1 allPeople = some pp ∧ pr.2 = path ++ [pp] := by
  induction ids generalizing visited res visited2 adds with
  | nil =>
    simp only [processParents] at h
    cases h
    intro pr hpr
    cases hpr
  | cons i rest ih =>
    simp only [processParents] at h
    split at h
    · intro pr hpr
      have := ih h pr hpr
      exact ⟨List.mem_cons_of_mem _ this.1, this.2.1, this.2.2⟩
    · next hnv =>
      split at h
      · intro pr hpr
        have := ih h pr hpr
        refine ⟨List.mem_cons_of_mem _ this.1, ?_, this.2.2⟩
        intro hx
        exact this.2.1 (List.mem_cons_of_mem _ hx)
      · next pp hpp =>
        split at h
        · cases h
          intro pr hpr
          cases hpr
        · injection h with h1 h2
          injection h2 with h2a h2b
          have heq : processParents allPeople endId path rest (i :: visited) =
              ((processParents allPeople endId path rest (i :: visited)).1,
               (processParents allPeople endId path rest (i :: visited)).2.1,
               (processParents allPeople endId path rest (i :: visited)).2.2) := rfl
          intro pr hpr
          rw [← h2b] at hpr
          rcases List.mem_cons.mp hpr with rfl | hpr2
          · refine ⟨List.mem_cons_self _ _, hnv, ?_, pp, hpp, rfl⟩
            rw [← h2a]
            exact processParents_visited_mono heq _ (List.mem_cons_self _ _)
          · have h3 := ih heq pr hpr2
            refine ⟨List.mem_cons_of_mem _ h3.1, ?_, ?_, h3.2.2.2⟩
            · intro hx
              exact h3.2.1 (List.mem_cons_of_mem _ hx)
            · rw [← h2a]
              exact h3.2.2.1

theorem processParents_adds_length {allPeople : List Person} {endId : String}
    {path : List Person} {ids visited : List String} {res visited2 adds}
    (h : processParents allPeople endId path ids visited = (res, visited2, adds)) :
    adds.length ≤ ids.length := by
  induction ids generalizing visited res visited2 adds with
  | nil =>
    simp only [processParents] at h
    cases h
    simp
  | cons i rest ih =>
    simp only [processParents] at h
    split at h
    · have := ih h
      simp only [List.length_cons]
      omega
    · split at h
      · have := ih h
        simp only [List.length_cons]
        omega
      · split at h
        · cases h
          simp
        · injection h with h1 h2
          injection h2 with h2a h2b
          have heq : processParents allPeople endId path rest (i :: visited) =
              ((processParents allPeople endId path rest (i :: visited)).1,
               (processParents allPeople endId path rest (i :: visited)).2.1,
               (processParents allPeople endId path rest (i :: visited)).2.2) := rfl
          have h3 := ih heq
          rw [← h2b]
          simp only [List.length_cons]
          exact Nat.succ_le_succ h3

theorem processParents_found {allPeople : List Person} {endId : String}
    {path : List Person} {ids visited : List String} {f visited2 adds}
    (h : processParents allPeople endId path ids visited = (some f, visited2, adds)) :
    endId ∈ ids ∧ ∃ pp, getPersonById endId allPeople = some pp ∧ pp.id = endId ∧
      f = path ++ [pp] := by
  induction ids generalizing visited visited2 adds with
  | nil =>
    simp only [processParents] at h
    cases h
  | cons i rest ih =>
    simp only [processParents] at h
    split at h
    · have := ih h
      exact ⟨List.mem_cons_of_mem _ this.1, this.2⟩
    · split at h
      · have := ih h
        exact ⟨List.mem_cons_of_mem _ this.1, this.2⟩
      · next pp hpp =>
        split at h
        · next heq =>
          cases h
          subst heq
          refine ⟨List.mem_cons_self _ _, pp, hpp, ?_, rfl⟩
          have := List.find?_some hpp
          simpa using this
        · injection h with h1 h2
          have heq : processParents allPeople endId path rest (i :: visited) =
              (some f,
               (processParents allPeople endId path rest (i :: visited)).2.1,
               (processParents allPeople endId path rest (i :: visited)).2.2) := by
            rw [← h1]
          have := ih heq
          exact ⟨List.mem_cons_of_mem _ this.1, this.2⟩

/-- Embeds the BFS while loop of getPathToAncestor: dequeue an id with
its path, look the person up, process the parent ids; a found target
ends the search, otherwise the loop continues on the extended queue. -/
def bfsPathLoop (allPeople : List Person) (endId : String)
    (queue : List (String × List Person)) (visited : List String) : Option (List Person) :=
  match queue with
  | [] => none
  | (personId, path) :: rest =>
    match hcp : getPersonById personId allPeople with
    | none => bfsPathLoop allPeople endId rest visited
    | some currentPerson =>
      let pr := processParents allPeople endId path currentPerson.parentIds visited
      match pr.1 with
      | some found => some found
      | none => bfsPathLoop allPeople endId (rest ++ pr.2.2) pr.2.1
termination_by
  pot ((queue.map Prod.fst).toFinset ∪ parentUniverse allPeople) visited
    * parentBound allPeople + queue.length
decreasing_by
  · apply bfs_measure_skip
    · apply pot_le_of_subset
      · apply Finset.union_subset_union_left
        simp only [List.map_cons, List.toFinset_cons]
        exact Finset.subset_insert _ _
      · intro x hx; exact hx
    · simp
  · have heq : processParents allPeople endId path currentPerson.parentIds visited =
        ((processParents allPeople endId path currentPerson.parentIds visited).1,
         (processParents allPeople endId path currentPerson.parentIds visited).2.1,
         (processParents allPeople endId path currentPerson.parentIds visited).2.2) := rfl
    have hmono := processParents_visited_mono heq
    have hadds := processParents_adds heq
    have hlen := processParents_adds_length heq
    have hmem : currentPerson ∈ allPeople := List.mem_of_find?_eq_some hcp
    have hUsub : ((rest ++
          (processParents allPeople endId path currentPerson.parentIds visited).2.2).map
            Prod.fst).toFinset ∪ parentUniverse allPeople ⊆
        (((personId, path) :: rest).map Prod.fst).toFinset ∪ parentUniverse allPeople := by
      simp only [List.map_append, List.toFinset_append]
      intro y hy
      rcases Finset.mem_union.mp hy with hy1 | hy2
      · rcases Finset.mem_union.mp hy1 with hy3 | hy4
        · apply Finset.mem_union_left
          simp only [List.map_cons, List.toFinset_cons]
          exact Finset.mem_insert_of_mem hy3
        · apply Finset.mem_union_right
          rw [List.mem_toFinset] at hy4
          rcases List.mem_map.mp hy4 with ⟨pr2, hpr2, rfl⟩
          exact parentIds_subset_universe hmem _ (hadds pr2 hpr2).1
      · exact Finset.mem_union_right _ hy2
    rcases hadds0 : (processParents allPeople endId path currentPerson.parentIds visited).2.2
      with _ | ⟨a, as⟩
    · apply bfs_measure_skip
      · apply pot_le_of_subset
        · rw [hadds0] at hUsub
          exact hUsub
        · exact hmono
      · simp
    · rw [hadds0] at hUsub hlen
      have ha := hadds a (by rw [hadds0]; exact List.mem_cons_self _ _)
      apply bfs_measure_visit
      · refine pot_lt_of_visit ?_ ?_ ?_ ?_ ha.2.2.1
        · exact hUsub
        · exact hmono
        · exact Finset.mem_union_right _ (parentIds_subset_universe hmem _ ha.1)
        · exact ha.2.1
      · have hb := parentIds_length_lt_bound hmem
        simp only [List.length_append, List.length_cons] at hlen ⊢
        omega

/-- Embeds getPathToAncestor of findLcaAndPaths: shortest child-to-parent
path from startId up to endId by BFS, inclusive of both ends. -/
def getPathToAncestor (allPeople : List Person) (startId endId : String) :
    Option (List Person) :=
  match getPersonById startId allPeople with
  | none => none
  | some startPerson =>
    if startId = endId then some [startPerson]
    else bfsPathLoop allPeople endId [(startId, [startPerson])] [startId]

/-- Embeds the first while loop of findLcaAndPaths: the full ancestor
closure of person 1 (person 1 included), as an association list from id
to person in discovery order. -/
def collectAncestorsLoop (allPeople : List Person) (queue visited : List String)
    (anc : List (String × Person)) : List (String × Person) :=
  match queue with
  | [] => anc
  | currentId :: rest =>
    if h : currentId ∈ visited then
      collectAncestorsLoop allPeople rest visited anc
    else
      match hp : getPersonById currentId allPeople with
      | none => collectAncestorsLoop allPeople rest (currentId :: visited) anc
      | some person =>
        collectAncestorsLoop allPeople (rest ++ person.parentIds) (currentId :: visited)
          (anc ++ [(currentId, person)])
termination_by
  pot (queue.toFinset ∪ parentUniverse allPeople) visited * parentBound allPeople + queue.length
decreasing_by
  · apply bfs_measure_skip
    · apply pot_le_of_subset
      · apply Finset.union_subset_union_left
        rw [List.toFinset_cons]
        exact Finset.subset_insert _ _
      · intro x hx; exact hx
    · simp
  · apply bfs_measure_visit
    · refine pot_lt_of_visit ?_ ?_ ?_ ?_ (List.mem_cons_self _ _)
      · apply Finset.union_subset_union_left
        rw [List.toFinset_cons]
        exact Finset.subset_insert _ _
      · intro y hy; exact List.mem_cons_of_mem _ hy
      · apply Finset.mem_union_left
        simp
      · exact h
    · simp; omega
  · apply bfs_measure_visit
    · refine pot_lt_of_visit ?_ ?_ ?_ ?_ (List.mem_cons_self _ _)
      · rw [List.toFinset_append]
        intro y hy
        rcases Finset.mem_union.mp hy with hy1 | hy2
        · rcases Finset.mem_union.mp hy1 with hy3 | hy4
          · apply Finset.mem_union_left
            rw [List.toFinset_cons]
            exact Finset.mem_insert_of_mem hy3
          · apply Finset.mem_union_right
            rw [List.mem_toFinset] at hy4
            exact parentIds_subset_universe (List.mem_of_find?_eq_some hp) _ hy4
        · exact Finset.mem_union_right _ hy2
      · intro y hy; exact List.mem_cons_of_mem _ hy
      · apply Finset.mem_union_left
        simp
      · exact h
    · have hb := parentIds_length_lt_bound (List.mem_of_find?_eq_some hp)
      simp only [List.length_append, List.length_cons]
      omega

/-- Embeds the push of unvisited parent ids in the second while loop of
findLcaAndPaths: each id not yet visited is marked visited and queued,
sequentially.  Returns the new visited set and the queued ids in order. -/
def pushUnvisited (ids visited : List String) : List String × List String :=
  match ids with
  | [] => (visited, [])
  | i :: rest =>
    if i ∈ visited then pushUnvisited rest visited
    else
      let pr := pushUnvisited rest (i :: visited)
      (pr.1, i :: pr.2)

theorem pushUnvisited_mono {ids visited : List String} :
    ∀ x ∈ visited, x ∈ (pushUnvisited ids visited).1 := by
  induction ids generalizing visited with
  | nil => intro x hx; simpa [pushUnvisited] using hx
  | cons i rest ih =>
    intro x hx
    simp only [pushUnvisited]
    split
    · exact ih x hx
    · exact ih x (List.mem_cons_of_mem _ hx)

theorem pushUnvisited_adds {ids visited : List String} :
    ∀ x ∈ (pushUnvisited ids visited).2,
      x ∈ ids ∧ x ∉ visited ∧ x ∈ (pushUnvisited ids visited).1 := by
  induction ids generalizing visited with
  | nil => intro x hx; simp [pushUnvisited] at hx
  | cons i rest ih =>
    intro x hx
    simp only [pushUnvisited] at hx ⊢
    split at hx
    · have := ih x hx
      split
      · exact ⟨List.mem_cons_of_mem _ this.1, this.2⟩
      · exact absurd (ih x hx).1 (by simp_all)
    · next hniv =>
      rw [List.mem_cons] at hx
      split
      · simp_all
      · rcases hx with rfl | hx2
        · exact ⟨List.mem_cons_self _ _, hniv, pushUnvisited_mono _ (List.mem_cons_self _ _)⟩
        · have := ih x hx2
          refine ⟨List.mem_cons_of_mem _ this.1, ?_, this.2.2⟩
          intro hmem
          exact this.2.1 (List.mem_cons_of_mem _ hmem)

theorem pushUnvisited_adds_length {ids visited : List String} :
    (pushUnvisited ids visited).2.length ≤ ids.length := by
  induction ids generalizing visited with
  | nil => simp [pushUnvisited]
  | cons i rest ih =>
    simp only [pushUnvisited]
    split
    · have := @ih visited
      simp only [List.length_cons]
      omega
    · have := @ih (i :: visited)
      simp only [List.length_cons]
      omega

/-- Embeds the second while loop of findLcaAndPaths: BFS upward from
person 2; the first dequeued id present in the ancestor closure of
person 1 for which both paths can be reconstructed yields the result,
otherwise the unvisited parent ids are pushed (visited marked at push
time, as in the source). -/
def lcaSearchLoop (allPeople : List Person) (anc : List (String × Person))
    (person1Id person2Id : String) (queue visited : List String) : Option LcaResult :=
  match queue with
  | [] => none
  | currentId :: rest =>
    let hit : Option LcaResult :=
      match anc.find? (fun kv => kv.1 == currentId) with
      | some kv =>
        match getPathToAncestor allPeople person1Id kv.2.id,
              getPathToAncestor allPeople person2Id kv.2.id with
        | some path1, some path2 => some ⟨kv.2, path1, path2⟩
        | _, _ => none
      | none => none
    match hit with
    | some r => some r
    | none =>
      match hp : getPersonById currentId allPeople with
      | none => lcaSearchLoop allPeople anc person1Id person2Id rest visited
      | some person =>
        lcaSearchLoop allPeople anc person1Id person2Id
          (rest ++ (pushUnvisited person.parentIds visited).2)
          (pushUnvisited person.parentIds visited).1
termination_by
  pot (queue.toFinset ∪ parentUniverse allPeople) visited * parentBound allPeople + queue.length
decreasing_by
  · apply bfs_measure_skip
    · apply pot_le_of_subset
      · apply Finset.union_subset_union_left
        rw [List.toFinset_cons]
        exact Finset.subset_insert _ _
      · intro x hx; exact hx
    · simp
  · have hmem : person ∈ allPeople := List.mem_of_find?_eq_some hp
    have hUsub : ∀ z : String, (rest ++ (pushUnvisited person.parentIds visited).2).toFinset ∪
        parentUniverse allPeople ⊆
        (z :: rest).toFinset ∪ parentUniverse allPeople := by
      intro z
      rw [List.toFinset_append]
      intro y hy
      rcases Finset.mem_union.mp hy with hy1 | hy2
      · rcases Finset.mem_union.mp hy1 with hy3 | hy4
        · apply Finset.mem_union_left
          rw [List.toFinset_cons]
          exact Finset.mem_insert_of_mem hy3
        · apply Finset.mem_union_right
          rw [List.mem_toFinset] at hy4
          exact parentIds_subset_universe hmem _ (pushUnvisited_adds _ hy4).1
      · exact Finset.mem_union_right _ hy2
    have hlen := @pushUnvisited_adds_length person.parentIds visited
    rcases hadds0 : (pushUnvisited person.parentIds visited).2 with _ | ⟨a, as⟩
    · apply bfs_measure_skip
      · apply pot_le_of_subset
        · rw [hadds0] at hUsub
          exact hUsub _
        · exact pushUnvisited_mono
      · simp
    · rw [hadds0] at hUsub hlen
      have ha := pushUnvisited_adds a (by rw [hadds0]; exact List.mem_cons_self _ _)
      apply bfs_measure_visit
      · refine pot_lt_of_visit ?_ ?_ ?_ ?_ ha.2.2
        · exact hUsub _
        · exact pushUnvisited_mono
        · exact Finset.mem_union_right _ (parentIds_subset_universe hmem _ ha.1)
        · exact ha.2.1
      · have hb := parentIds_length_lt_bound hmem
        simp only [List.length_append, List.length_cons] at hlen ⊢
        omega

/-- Embeds findLcaAndPaths of relationshipUtils.ts: ancestor closure of
person 1 (seeded with person 1 itself), then upward BFS from person 2
(seeded with person 2, visited initialised to person 2). -/
def findLcaAndPaths (person1Id person2Id : String) (allPeople : List Person) :
    Option LcaResult :=
  lcaSearchLoop allPeople (collectAncestorsLoop allPeople [person1Id] [] [])
    person1Id person2Id [person2Id] [person2Id]

/-- Gendered ternary of the source: Male term, Female term, fallback. -/
def genderedTerm (g : Gender) (m f o : String) : String :=
  match g with
  | Gender.Male => m
  | Gender.Female => f
  | Gender.Other => o

/-- The repeat of the string Great- used for deep direct lines. -/
def greatRepeat (n : Nat) : String := String.join (List.replicate n "Great-")

/-- JavaScript array indexing with an integer index: undefined (none)
for an out-of-range index; an index of negative zero is zero. -/
def jsArrayGet (l : List String) (i : Int) : Option String :=
  if 0 ≤ i then l.get? i.toNat else none

/-- Embeds the ordinal helper of relationshipUtils.ts.  The JavaScript
remainder operator on a negative dividend truncates toward zero, which
is Int.tmod; the logical-or chain takes the first defined entry (every
entry of the table is a non-empty, hence truthy, string). -/
def ordinal (n : Nat) : String :=
  if n ≤ 0 then toString n
  else
    let s := ["th", "st", "nd", "rd"]
    let v : Int := (n : Int) % 100
    toString n ++ ((jsArrayGet s ((v - 20).tmod 10)).getD ((jsArrayGet s v).getD "th"))

/-- Embeds describeBloodRelationship of relationshipUtils.ts.  Path
lengths are at least one at every call site, so the Nat subtraction in
the generation distances agrees with the source arithmetic. -/
def describeBloodRelationship (person1 person2 lca : Person)
    (path1 path2 : List Person) : String :=
  let d1 := path1.length - 1
  let d2 := path2.length - 1
  if lca.id = person1.id then
    let d := d2
    if d = 0 then "Self"
    else if d = 1 then genderedTerm person2.gender "Son" "Daughter" "Child"
    else if d = 2 then genderedTerm person2.gender "Grandson" "Granddaughter" "Grandchild"
    else greatRepeat (d - 2) ++ genderedTerm person2.gender "Grandson" "Granddaughter" "Grandchild"
  else if lca.id = person2.id then
    let d := d1
    if d = 0 then "Self"
    else if d = 1 then genderedTerm person2.gender "Father" "Mother" "Parent"
    else if d = 2 then genderedTerm person2.gender "Grandfather" "Grandmother" "Grandparent"
    else greatRepeat (d - 2) ++ genderedTerm person2.gender "Grandfather" "Grandmother" "Grandparent"
  else if d1 = 1 ∧ d2 = 1 then
    genderedTerm person2.gender "Brother" "Sister" "Sibling"
  else
    let cousinLevel := min d1 d2 - 1
    let removalLevel := max d1 d2 - min d1 d2
    if cousinLevel = 0 then
      let pfx := if removalLevel > 1 then "Grand" else ""
      if d1 < d2 then pfx ++ genderedTerm person2.gender "nephew" "niece" "nephew/niece"
      else pfx ++ genderedTerm person2.gender "uncle" "aunt" "aunt/uncle"
    else
      let cousinTerm := ordinal cousinLevel
      let removalTerm :=
        if removalLevel > 0 then
          ", " ++ (if removalLevel = 1 then "once"
            else if removalLevel = 2 then "twice"
            else toString removalLevel ++ " times") ++ " removed"
        else ""
      cousinTerm ++ " cousin" ++ removalTerm

/-- Embeds getPathSegmentDescription of relationshipUtils.ts. -/
def getPathSegmentDescription (p1 p2 : Person) : String :=
  if p2.id ∈ p1.childrenIds then
    genderedTerm p1.gender "is the father of" "is the mother of" "is the parent of"
  else if p2.id ∈ p1.parentIds then
    genderedTerm p1.gender "is the son of" "is the daughter of" "is the child of"
  else if p1.marriages.any (fun m => m.spouseId == p2.id) then
    genderedTerm p1.gender "is the husband of" "is the wife of" "is the spouse of"
  else "is related to"

/-- The for-loop of generatePathDescription: each consecutive pair is
rendered with a connector that depends on whether it is the first
segment. -/
def genPathDescAux (p1 : Person) : List Person → Nat → String
  | [], _ => ""
  | p2 :: rest, i =>
    (if i > 0 then ", who " else " ") ++ getPathSegmentDescription p1 p2 ++ " "
      ++ getFullName p2 ++ genPathDescAux p2 rest (i + 1)

/-- Embeds generatePathDescription of relationshipUtils.ts. -/
def generatePathDescription (path : List Person) : String :=
  if path.length < 2 then "They are the same person."
  else
    match path with
    | [] => "They are the same person."
    | p0 :: rest => getFullName p0 ++ genPathDescAux p0 rest 0 ++ "."

/-- The tagged union returned by the relationship finders. -/
inductive Relationship
  | blood (description : String) (path1 path2 : List Person) (lca : Person)
  | path (description : String) (path : List Person)
  | none (description : String)
deriving DecidableEq

def Relationship.description : Relationship → String
  | .blood d _ _ _ => d
  | .path d _ => d
  | .none d => d

/-- The type-tag test used by findAllRelationships. -/
def Relationship.isNoneType : Relationship → Bool
  | .none _ => true
  | _ => false

/-- The spouse ids of the marriages of a person. -/
def spouseIdsOf (p : Person) : List String := p.marriages.map (fun m => m.spouseId)

/-- The neighbor ids used by findGenericPath: parents, children and
spouses, concatenated in source order. -/
def neighborIds (p : Person) : List String := p.parentIds ++ p.childrenIds ++ spouseIdsOf p

def neighborUniverse (allPeople : List Person) : Finset String :=
  (allPeople.flatMap neighborIds).toFinset

def neighborBound (allPeople : List Person) : Nat :=
  (allPeople.map (fun p => (neighborIds p).length)).sum + 1

theorem neighborIds_subset_universe {p : Person} {allPeople : List Person}
    (hp : p ∈ allPeople) : ∀ q ∈ neighborIds p, q ∈ neighborUniverse allPeople := by
  intro q hq
  simp only [neighborUniverse, List.mem_toFinset, List.mem_flatMap]
  exact ⟨p, hp, hq⟩

theorem neighborIds_length_lt_bound {p : Person} {allPeople : List Person}
    (hp : p ∈ allPeople) : (neighborIds p).length < neighborBound allPeople := by
  have h1 : (neighborIds p).length ∈ allPeople.map (fun q => (neighborIds q).length) :=
    List.mem_map.mpr ⟨p, hp, rfl⟩
  have h2 := le_sum_of_mem h1
  simp only [neighborBound]
  omega

/-- The neighbor ids of the last person of a queued path (the source
reads the current person from the end of the stored path; an empty path
never occurs). -/
def pathNbrIds (path : List Person) : List String :=
  match path.getLast? with
  | some p => neighborIds p
  | Option.none => []

def queueNbrFinset (queue : List (String × List Person)) : Finset String :=
  (queue.flatMap (fun it => pathNbrIds it.2)).toFinset

def queueNbrLen (queue : List (String × List Person)) : Nat :=
  (queue.map (fun it => (pathNbrIds it.2).length)).sum

theorem queueNbrLen_cons {pid : String} {path : List Person}
    {rest : List (String × List Person)} :
    queueNbrLen ((pid, path) :: rest) = (pathNbrIds path).length + queueNbrLen rest := by
  simp [queueNbrLen]

theorem queueNbrLen_append {q1 q2 : List (String × List Person)} :
    queueNbrLen (q1 ++ q2) = queueNbrLen q1 + queueNbrLen q2 := by
  simp [queueNbrLen]

theorem mem_queueNbrFinset {queue : List (String × List Person)} {it : String × List Person}
    (hit : it ∈ queue) : ∀ x ∈ pathNbrIds it.2, x ∈ queueNbrFinset queue := by
  intro x hx
  simp only [queueNbrFinset, List.mem_toFinset, List.mem_flatMap]
  exact ⟨it, hit, hx⟩

/-- Embeds the inner for-loop over the neighbors of the current person
inside findGenericPath: each unvisited neighbor id is marked visited,
looked up, and enqueued with the extended path when found. -/
def processNeighbors (allPeople : List Person) (path : List Person) :
    List String → List String → List String × List (String × List Person)
  | [], visited => (visited, [])
  | neighborId :: restIds, visited =>
    if neighborId ∈ visited then processNeighbors allPeople path restIds visited
    else
      match getPersonById neighborId allPeople with
      | Option.none => processNeighbors allPeople path restIds (neighborId :: visited)
      | some neighborPerson =>
        let pr := processNeighbors allPeople path restIds (neighborId :: visited)
        (pr.1, (neighborId, path ++ [neighborPerson]) :: pr.2)

theorem processNeighbors_mono {allPeople : List Person} {path : List Person}
    {ids visited : List String} :
    ∀ x ∈ visited, x ∈ (processNeighbors allPeople path ids visited).1 := by
  induction ids generalizing visited with
  | nil => intro x hx; simpa [processNeighbors] using hx
  | cons i rest ih =>
    intro x hx
    simp only [processNeighbors]
    split
    · exact ih x hx
    · split
      · exact ih x (List.mem_cons_of_mem _ hx)
      · exact ih x (List.mem_cons_of_mem _ hx)

theorem processNeighbors_adds {allPeople : List Person} {path : List Person}
    {ids visited : List String} :
    ∀ pr2 ∈ (processNeighbors allPeople path ids visited).2,
      pr2.1 ∈ ids ∧ pr2.1 ∉ visited ∧ pr2.1 ∈ (processNeighbors allPeople path ids visited).1 ∧
      ∃ np, getPersonById pr2.1 allPeople = some np ∧ pr2.2 = path ++ [np] := by
  induction ids generalizing visited with
  | nil => intro pr2 hpr2; simp [processNeighbors] at hpr2
  | cons i rest ih =>
    intro pr2 hpr2
    simp only [processNeighbors] at hpr2 ⊢
    split at hpr2
    · next hiv =>
      simp only [if_pos hiv]
      have := ih pr2 hpr2
      exact ⟨List.mem_cons_of_mem _ this.1, this.2⟩
    · next hiv =>
      simp only [if_neg hiv]
      split at hpr2
      · next hnone =>
        try simp only [hnone]
        have := ih pr2 hpr2
        refine ⟨List.mem_cons_of_mem _ this.1, ?_, this.2.2⟩
        intro hmem
        exact this.2.1 (List.mem_cons_of_mem _ hmem)
      · next np hnp =>
        try simp only [hnp]
        rcases List.mem_cons.mp hpr2 with rfl | hpr3
        · refine ⟨List.mem_cons_self _ _, hiv, processNeighbors_mono _ (List.mem_cons_self _ _),
            np, hnp, rfl⟩
        · have := ih pr2 hpr3
          refine ⟨List.mem_cons_of_mem _ this.1, ?_, this.2.2⟩
          intro hmem
          exact this.2.1 (List.mem_cons_of_mem _ hmem)

theorem processNeighbors_adds_length {allPeople : List Person} {path : List Person}
    {ids visited : List String} :
    (processNeighbors allPeople path ids visited).2.length ≤ ids.length := by
  induction ids generalizing visited with
  | nil => simp [processNeighbors]
  | cons i rest ih =>
    simp only [processNeighbors]
    split
    · have := @ih visited
      simp only [List.length_cons]
      omega
    · split
      · have := @ih (i :: visited)
        simp only [List.length_cons]
        omega
      · have := @ih (i :: visited)
        simp only [List.length_cons]
        omega

theorem processNeighbors_adds_nodup {allPeople : List Person} {path : List Person}
    {ids visited : List String} :
    ((processNeighbors allPeople path ids visited).2.map Prod.fst).Nodup := by
  induction ids generalizing visited with
  | nil => simp [processNeighbors]
  | cons i rest ih =>
    simp only [processNeighbors]
    split
    · exact ih
    · split
      · exact ih
      · next np hnp =>
        simp only [List.map_cons, List.nodup_cons]
        refine ⟨?_, ih⟩
        intro hmem
        rcases List.mem_map.mp hmem with ⟨pr2, hpr2, heq⟩
        have hfacts := processNeighbors_adds pr2 hpr2
        apply hfacts.2.1
        rw [heq]
        exact List.mem_cons_self _ _

theorem map_sum_le {α : Type} {l : List α} {f : α → Nat} {B : Nat}
    (h : ∀ x ∈ l, f x ≤ B) : (l.map f).sum ≤ l.length * B := by
  induction l with
  | nil => simp
  | cons a t ih =>
    simp only [List.map_cons, List.sum_cons, List.length_cons]
    have h1 := h a (List.mem_cons_self _ _)
    have h2 := ih (fun x hx => h x (List.mem_cons_of_mem _ hx))
    have h3 : (t.length + 1) * B = t.length * B + B := by ring
    omega

theorem pot_card_add_le {A' A K : Finset String} (h1 : A' ⊆ A \ K) (h2 : K ⊆ A) :
    A'.card + K.card ≤ A.card := by
  have h3 := Finset.card_le_card h1
  rw [Finset.card_sdiff h2] at h3
  have h4 := Finset.card_le_card h2
  omega

theorem generic_measure_dec {potA k potB C lrest Srest Sadds nl : Nat}
    (hpk : potA + k ≤ potB) (hS : Sadds ≤ k * (C - 1)) (hk : k ≤ nl) (hC : 1 ≤ C) :
    potA * C + (lrest + k + (Srest + Sadds)) < potB * C + (lrest + 1 + (nl + Srest)) := by
  have h1 : k * C = k * (C - 1) + k := by
    cases C with
    | zero => omega
    | succ c =>
      simp only [Nat.succ_sub_one]
      ring
  have h2 : (potA + k) * C ≤ potB * C := Nat.mul_le_mul_right C hpk
  have h3 : (potA + k) * C = potA * C + k * C := by ring
  omega

/-- Embeds the BFS while loop of findGenericPath: dequeue an id with its
path; reaching the target yields a path result, otherwise the neighbors
of the last person of the path are processed and the loop continues. -/
def genericPathLoop (allPeople : List Person) (targetId : String)
    (queue : List (String × List Person)) (visited : List String) : Option Relationship :=
  match queue with
  | [] => Option.none
  | (personId, path) :: rest =>
    if personId = targetId then
      some (Relationship.path (generatePathDescription path) path)
    else
      genericPathLoop allPeople targetId
        (rest ++ (processNeighbors allPeople path (pathNbrIds path) visited).2)
        (processNeighbors allPeople path (pathNbrIds path) visited).1
termination_by
  pot ((queue.map Prod.fst).toFinset ∪ queueNbrFinset queue ∪ neighborUniverse allPeople)
      visited * neighborBound allPeople + (queue.length + queueNbrLen queue)
decreasing_by
  have hUsub : ((rest ++ (processNeighbors allPeople path (pathNbrIds path) visited).2).map
        Prod.fst).toFinset ∪
      queueNbrFinset (rest ++ (processNeighbors allPeople path (pathNbrIds path) visited).2) ∪
      neighborUniverse allPeople ⊆
      (((personId, path) :: rest).map Prod.fst).toFinset ∪
        queueNbrFinset ((personId, path) :: rest) ∪ neighborUniverse allPeople := by
    intro y hy
    rcases Finset.mem_union.mp hy with hy1 | hyP
    · rcases Finset.mem_union.mp hy1 with hyQ | hyN
      · rw [List.map_append, List.toFinset_append] at hyQ
        rcases Finset.mem_union.mp hyQ with hyQ1 | hyQ2
        · apply Finset.mem_union_left
          apply Finset.mem_union_left
          simp only [List.map_cons, List.toFinset_cons]
          exact Finset.mem_insert_of_mem hyQ1
        · rw [List.mem_toFinset] at hyQ2
          rcases List.mem_map.mp hyQ2 with ⟨pr2, hpr2, rfl⟩
          have hfacts := processNeighbors_adds pr2 hpr2
          apply Finset.mem_union_left
          apply Finset.mem_union_right
          exact mem_queueNbrFinset (List.mem_cons_self _ _) _ hfacts.1
      · simp only [queueNbrFinset, List.flatMap_append, List.toFinset_append] at hyN
        rcases Finset.mem_union.mp hyN with hyN1 | hyN2
        · apply Finset.mem_union_left
          apply Finset.mem_union_right
          simp only [queueNbrFinset, List.flatMap_cons, List.toFinset_append]
          exact Finset.mem_union_right _ hyN1
        · rw [List.mem_toFinset] at hyN2
          rcases List.mem_flatMap.mp hyN2 with ⟨it, hit, hyit⟩
          have hfacts := processNeighbors_adds it hit
          rcases hfacts.2.2.2 with ⟨np, hnp, hpath⟩
          apply Finset.mem_union_right
          have hlast : it.2.getLast? = some np := by
            rw [hpath]
            exact List.getLast?_concat _
          rw [pathNbrIds, hlast] at hyit
          exact neighborIds_subset_universe (List.mem_of_find?_eq_some hnp) _ hyit
    · exact Finset.mem_union_right _ hyP
  rcases hadds0 : (processNeighbors allPeople path (pathNbrIds path) visited).2 with _ | ⟨a, as⟩
  · apply bfs_measure_skip
    · apply pot_le_of_subset
      · rw [hadds0] at hUsub
        exact hUsub
      · exact processNeighbors_mono
    · simp only [List.append_nil, queueNbrLen_cons, List.length_cons]
      omega
  · rw [hadds0] at hUsub
    have hKsub : ((a :: as).map Prod.fst).toFinset ⊆
        ((((personId, path) :: rest).map Prod.fst).toFinset ∪
          queueNbrFinset ((personId, path) :: rest) ∪ neighborUniverse allPeople) \
          visited.toFinset := by
      intro q hq
      rw [List.mem_toFinset] at hq
      rcases List.mem_map.mp hq with ⟨pr2, hpr2, rfl⟩
      have hfacts := processNeighbors_adds pr2 (by rw [hadds0]; exact hpr2)
      rw [Finset.mem_sdiff]
      constructor
      · apply Finset.mem_union_left
        apply Finset.mem_union_right
        exact mem_queueNbrFinset (List.mem_cons_self _ _) _ hfacts.1
      · rw [List.mem_toFinset]
        exact hfacts.2.1
    have hA'sub : ((((rest ++ a :: as).map Prod.fst).toFinset ∪
          queueNbrFinset (rest ++ a :: as) ∪ neighborUniverse allPeople) \
          (processNeighbors allPeople path (pathNbrIds path) visited).1.toFinset) ⊆
        (((((personId, path) :: rest).map Prod.fst).toFinset ∪
          queueNbrFinset ((personId, path) :: rest) ∪ neighborUniverse allPeople) \
          visited.toFinset) \ ((a :: as).map Prod.fst).toFinset := by
      intro y hy
      rw [Finset.mem_sdiff] at hy
      rw [Finset.mem_sdiff, Finset.mem_sdiff]
      refine ⟨⟨hUsub hy.1, ?_⟩, ?_⟩
      · rw [List.mem_toFinset]
        intro hyv
        exact hy.2 (List.mem_toFinset.mpr (processNeighbors_mono _ hyv))
      · intro hyK
        rcases List.mem_map.mp (List.mem_toFinset.mp hyK) with ⟨pr2, hpr2, heq⟩
        have hfacts := processNeighbors_adds pr2 (by rw [hadds0]; exact hpr2)
        apply hy.2
        rw [← heq]
        exact List.mem_toFinset.mpr hfacts.2.2.1
    have hcard := pot_card_add_le hA'sub hKsub
    have hnd : ((a :: as).map Prod.fst).Nodup :=
      hadds0 ▸ @processNeighbors_adds_nodup allPeople path (pathNbrIds path) visited
    have hKcard : (((a :: as).map Prod.fst).toFinset).card = (a :: as).length := by
      rw [List.toFinset_card_of_nodup hnd, List.length_map]
    rw [hKcard] at hcard
    have hSadds : queueNbrLen (a :: as) ≤
        (a :: as).length * (neighborBound allPeople - 1) := by
      simp only [queueNbrLen]
      apply map_sum_le
      intro it hit
      have hfacts := processNeighbors_adds it (by rw [hadds0]; exact hit)
      rcases hfacts.2.2.2 with ⟨np, hnp, hpath⟩
      have hlast : it.2.getLast? = some np := by
        rw [hpath]
        exact List.getLast?_concat _
      simp only [pathNbrIds, hlast]
      have := neighborIds_length_lt_bound (List.mem_of_find?_eq_some hnp)
      omega
    have hk : (a :: as).length ≤ (pathNbrIds path).length := by
      rw [← hadds0]
      exact processNeighbors_adds_length
    have hC : 1 ≤ neighborBound allPeople := by
      simp only [neighborBound]
      omega
    simp only [List.length_cons] at hcard hSadds hk
    rw [List.length_append, queueNbrLen_append, queueNbrLen_cons]
    rw [List.length_cons]
    rw [List.length_cons]
    exact generic_measure_dec hcard hSadds hk hC

/-- Embeds findGenericPath of relationshipUtils.ts: BFS from person 1
over parent, child and spouse edges toward person 2. -/
def findGenericPath (person1 person2 : Person) (allPeople : List Person) :
    Option Relationship :=
  genericPathLoop allPeople person2.id [(person1.id, [person1])] [person1.id]

/-- Embeds the in-law description by generation for the Bahu and Damad
terms of branch C of findRelationship; the empty string is the falsy
no-match value of the source. -/
def inLawDesc (g : Gender) (generation : Nat) : String :=
  match g with
  | Gender.Female =>
    if generation = 1 then "Son\x27s Wife (Bahu)"
    else if generation = 2 then "Grandson\x27s Wife (Bahu)"
    else if generation > 2 then greatRepeat (generation - 2) ++ "Grandson\x27s Wife (Bahu)"
    else ""
  | Gender.Male =>
    if generation = 1 then "Daughter\x27s Husband (Damad)"
    else if generation = 2 then "Granddaughter\x27s Husband (Damad)"
    else if generation > 2 then
      greatRepeat (generation - 2) ++ "Granddaughter\x27s Husband (Damad)"
    else ""
  | Gender.Other => ""

/-- Embeds the for-loop over the marriages of person 2 in branch C of
findRelationship: a spouse of person 2 who is a descendant of person 1
yields the in-law term when the description is non-empty. -/
def inLawLoop (allPeople : List Person) (person1Id : String) (person1 person2 : Person) :
    List Marriage → Option Relationship
  | [] => Option.none
  | marriage :: rest =>
    match getPersonById marriage.spouseId allPeople with
    | Option.none => inLawLoop allPeople person1Id person1 person2 rest
    | some spouseOfPerson2 =>
      match findLcaAndPaths person1Id spouseOfPerson2.id allPeople with
      | some bloodResult =>
        if bloodResult.lca.id = person1Id then
          let generation := bloodResult.path2.length - 1
          let desc := inLawDesc person2.gender generation
          if desc = "" then inLawLoop allPeople person1Id person1 person2 rest
          else some (Relationship.path desc [person1, spouseOfPerson2, person2])
        else inLawLoop allPeople person1Id person1 person2 rest
      | Option.none => inLawLoop allPeople person1Id person1 person2 rest

/-- Embeds findRelationship of relationshipUtils.ts: falsy-or-equal id
guard, person lookups, then marriage, blood, in-law, generic path, and
the fixed no-path result, in source order. -/
def findRelationship (person1Id person2Id : String) (allPeople : List Person) :
    Option Relationship :=
  if person1Id = "" ∨ person2Id = "" ∨ person1Id = person2Id then Option.none
  else
    match getPersonById person1Id allPeople, getPersonById person2Id allPeople with
    | some person1, some person2 =>
      if person1.marriages.any (fun m => m.spouseId == person2Id) then
        some (Relationship.path (genderedTerm person2.gender "Husband" "Wife" "Spouse")
          [person1, person2])
      else
        match findLcaAndPaths person1Id person2Id allPeople with
        | some lcaResult =>
          some (Relationship.blood
            (describeBloodRelationship person1 person2 lcaResult.lca lcaResult.path1
              lcaResult.path2)
            lcaResult.path1 lcaResult.path2 lcaResult.lca)
        | Option.none =>
          match inLawLoop allPeople person1Id person1 person2 person2.marriages with
          | some rel => some rel
          | Option.none =>
            match findGenericPath person1 person2 allPeople with
            | some pathResult => some pathResult
            | Option.none => some (Relationship.none "No relationship path could be found.")
    | _, _ => Option.none

/-- Embeds the addRelationship closure of findAllRelationships: skip
none-typed results and duplicate descriptions. -/
def addRelationship (relationships : List Relationship) (rel : Relationship) :
    List Relationship :=
  if rel.isNoneType = false ∧
      relationships.any (fun r => r.description == rel.description) = false then
    relationships ++ [rel]
  else relationships

/-- Embeds one iteration of the loop of findAllRelationships over the
blood-relative ids of person 1: a relative other than person 1 who is
married to person 2 contributes an in-law description and path. -/
def inLawRelStep (allPeople : List Person) (person1Id person2Id : String) (person2 : Person)
    (acc : List Relationship) (relativeId : String) : List Relationship :=
  match getPersonById relativeId allPeople with
  | Option.none => acc
  | some bloodRelative =>
    if bloodRelative.id ≠ person1Id ∧
        bloodRelative.marriages.any (fun m => m.spouseId == person2Id) then
      match findRelationship person1Id bloodRelative.id allPeople with
      | Option.none => acc
      | some relToBloodRelative =>
        if relToBloodRelative.isNoneType = false then
          let inLawDescription := relToBloodRelative.description ++ "\x27s " ++
            (if person2.gender = Gender.Male then "Husband" else "Wife")
          let path : List Person :=
            match relToBloodRelative with
            | Relationship.blood _ path1 path2 _ =>
              path1.dropLast ++ path2.reverse ++ [person2]
            | Relationship.path _ p => p ++ [person2]
            | Relationship.none _ => []
          if path.length > 0 then
            addRelationship acc (Relationship.path inLawDescription path)
          else acc
        else acc
    else acc

/-- The path-length key of the final sort of findAllRelationships; the
unreachable none case is the JavaScript Infinity, the top element. -/
def relLen : Relationship → WithTop Nat
  | Relationship.blood _ path1 path2 _ => ((path1.length + path2.length - 2 : Nat) : WithTop Nat)
  | Relationship.path _ p => ((p.length - 1 : Nat) : WithTop Nat)
  | Relationship.none _ => ⊤

/-- Embeds findAllRelationships of relationshipUtils.ts: the primary
relationship, then the in-law alternatives through the blood relatives
of person 1, deduplicated by description, the none singleton when empty,
otherwise sorted by ascending path length (stable, as the JavaScript
sort). -/
def findAllRelationships (person1Id person2Id : String) (allPeople : List Person) :
    List Relationship :=
  match getPersonById person1Id allPeople, getPersonById person2Id allPeople with
  | some person1, some person2 =>
    if person1Id = person2Id then []
    else
      let rels1 :=
        match findRelationship person1Id person2Id allPeople with
        | some primaryRel => addRelationship [] primaryRel
        | Option.none => []
      let rels2 := (getAllBloodRelativesIds person1 allPeople).foldl
        (inLawRelStep allPeople person1Id person2Id person2) rels1
      if rels2 = [] then [Relationship.none "No relationship path could be found."]
      else rels2.mergeSort (fun a b => decide (relLen a ≤ relLen b))
  | _, _ => []

/-! Declarative graph relations used to state the claims: a child-to-
parent step, its descendant dual, the undirected parent/child/spouse
edge relation, and reachability through the collection. -/

/-- One child-to-parent step: the second person is a recorded parent of
the first. -/
def parentStep (a b : Person) : Prop := b.id ∈ a.parentIds

/-- One parent-to-child step: the second person is a recorded child of
the first. -/
def childStep (a b : Person) : Prop := b.id ∈ a.childrenIds

/-- An undirected parent, child or spouse edge between two person
records, in either orientation. -/
def edgeRel (a b : Person) : Prop :=
  b.id ∈ a.parentIds ∨ b.id ∈ a.childrenIds ∨ b.id ∈ spouseIdsOf a ∨
  a.id ∈ b.parentIds ∨ a.id ∈ b.childrenIds ∨ a.id ∈ spouseIdsOf b

instance (a b : Person) : Decidable (edgeRel a b) := by
  unfold edgeRel
  infer_instance

theorem edgeRel_symm {a b : Person} (h : edgeRel a b) : edgeRel b a := by
  unfold edgeRel at *
  tauto

/-- Reachability from a to b along undirected parent/child/spouse edges
whose targets are records of the collection. -/
def Connected (allPeople : List Person) (a b : Person) : Prop :=
  Relation.ReflTransGen (fun x y => y ∈ allPeople ∧ edgeRel x y) a b

theorem connected_refl {allPeople : List Person} {a : Person} : Connected allPeople a a :=
  Relation.ReflTransGen.refl

theorem connected_mem {allPeople : List Person} {a b : Person}
    (h : Connected allPeople a b) (ha : a ∈ allPeople) : b ∈ allPeople := by
  induction h with
  | refl => exact ha
  | tail _ hstep _ => exact hstep.1

theorem connected_symm {allPeople : List Person} {a b : Person}
    (h : Connected allPeople a b) (ha : a ∈ allPeople) : Connected allPeople b a := by
  induction h with
  | refl => exact connected_refl
  | tail hab hstep ih =>
    rename_i b2 c2
    have hb2 : b2 ∈ allPeople := connected_mem hab ha
    exact Relation.ReflTransGen.head ⟨hb2, edgeRel_symm hstep.2⟩ ih

theorem connected_trans {allPeople : List Person} {a b c : Person}
    (h1 : Connected allPeople a b) (h2 : Connected allPeople b c) :
    Connected allPeople a c :=
  Relation.ReflTransGen.trans h1 h2

/-- A chain of steps that are all edges, through people of the
collection, yields reachability from the head to the last element. -/
theorem connected_of_chain {R : Person → Person → Prop}
    (hR : ∀ x y, R x y → edgeRel x y) {allPeople : List Person} :
    ∀ {l : List Person} {a b : Person}, l.Chain' R → (∀ x ∈ l, x ∈ allPeople) →
      l.head? = some a → l.getLast? = some b → Connected allPeople a b := by
  intro l
  induction l with
  | nil => intro a b _ _ hhead _; cases hhead
  | cons p0 rest ih =>
    intro a b hch hmem hhead hlast
    rw [List.head?_cons, Option.some_inj] at hhead
    subst hhead
    match rest with
    | [] =>
      simp only [List.getLast?_singleton, Option.some_inj] at hlast
      subst hlast
      exact connected_refl
    | p1 :: rest2 =>
      rw [List.chain'_cons] at hch
      have hstep : Connected allPeople p0 p1 :=
        Relation.ReflTransGen.single ⟨hmem p1 (by simp), hR _ _ hch.1⟩
      refine connected_trans hstep (ih hch.2 (fun x hx => hmem x (List.mem_cons_of_mem _ hx))
        rfl ?_)
      rw [← hlast]
      rw [List.getLast?_cons_cons]

/-- The id of a successful person lookup is the queried id. -/
theorem getPersonById_id {pid : String} {allPeople : List Person} {p : Person}
    (h : getPersonById pid allPeople = some p) : p.id = pid := by
  have := List.find?_some h
  simpa using this

theorem getPersonById_mem {pid : String} {allPeople : List Person} {p : Person}
    (h : getPersonById pid allPeople = some p) : p ∈ allPeople :=
  List.mem_of_find?_eq_some h

/-- With globally unique ids, looking up the id of a member returns that
member. -/
theorem getPersonById_of_nodup {allPeople : List Person} {p : Person}
    (hnodup : (allPeople.map Person.id).Nodup) (hp : p ∈ allPeople) :
    getPersonById p.id allPeople = some p := by
  induction allPeople with
  | nil => cases hp
  | cons q rest ih =>
    simp only [List.map_cons, List.nodup_cons] at hnodup
    rcases List.mem_cons.mp hp with rfl | hp2
    · simp [getPersonById, List.find?]
    · by_cases hq : q.id = p.id
      · exfalso
        apply hnodup.1
        rw [hq]
        exact List.mem_map.mpr ⟨p, hp2, rfl⟩
      · simp only [getPersonById, List.find?]
        rw [show (q.id == p.id) = false from by simpa using hq]
        exact ih hnodup.2 hp2


/-- Invariant of the queue items of the path BFS: a non-empty
child-to-parent chain of collection members from the start person to
the person of the queued id. -/
def PathItemInv (allPeople : List Person) (sp : Person) (it : String × List Person) : Prop :=
  it.2 ≠ [] ∧ it.2.Chain' parentStep ∧ it.2.head? = some sp ∧ (∀ x ∈ it.2, x ∈ allPeople) ∧
  ∃ p, getPersonById it.1 allPeople = some p ∧ it.2.getLast? = some p

theorem bfsPathLoop_sound (allPeople : List Person) (endId : String) (sp : Person)
    (queue : List (String × List Person)) (visited : List String) :
    (∀ it ∈ queue, PathItemInv allPeople sp it) →
    ∀ l, bfsPathLoop allPeople endId queue visited = some l →
      l.Chain' parentStep ∧ l.head? = some sp ∧ (∀ x ∈ l, x ∈ allPeople) ∧ 2 ≤ l.length ∧
      ∃ ep, getPersonById endId allPeople = some ep ∧ ep.id = endId ∧ l.getLast? = some ep := by
  induction queue, visited using bfsPathLoop.induct allPeople endId with
  | case1 visited =>
    intro _ l h
    rw [bfsPathLoop] at h
    cases h
  | case2 visited pid path rest hlk ih =>
    intro hinv l h
    rw [bfsPathLoop] at h
    split at h
    · exact ih (fun it hit => hinv it (List.mem_cons_of_mem _ hit)) l h
    · next cur2 hcur2 =>
      rw [hlk] at hcur2
      cases hcur2
  | case3 visited pid path rest cur hcur pr found hfound =>
    intro hinv l h
    rw [bfsPathLoop] at h
    split at h
    · next hlk2 =>
      rw [hcur] at hlk2
      cases hlk2
    · next cur2 hcur2 =>
      rw [hcur] at hcur2
      injection hcur2 with hcur3
      subst hcur3
      have hfound2 : (processParents allPeople endId path cur.parentIds visited).1 =
          some found := hfound
      simp only [hfound2] at h
      injection h with hl
      subst hl
      have heq : processParents allPeople endId path cur.parentIds visited =
          (some found,
           (processParents allPeople endId path cur.parentIds visited).2.1,
           (processParents allPeople endId path cur.parentIds visited).2.2) := by
        rw [← hfound2]
      have hfnd := processParents_found heq
      rcases hfnd with ⟨hmemid, pp, hpp, hppid, rfl⟩
      have hhead := hinv (pid, path) (List.mem_cons_self _ _)
      simp only [PathItemInv] at hhead
      rcases hhead with ⟨hne, hch, hhd, hmem, p, hlkp, hlast⟩
      have hpcur : p = cur := by
        rw [hlkp] at hcur
        injection hcur
      rw [hpcur] at hlast
      refine ⟨?_, ?_, ?_, ?_, pp, hpp, hppid, ?_⟩
      · rw [List.chain'_append]
        refine ⟨hch, List.chain'_singleton _, ?_⟩
        intro x hx y hy
        rw [hlast] at hx
        simp only [List.head?_cons, Option.mem_def, Option.some_inj] at hx hy
        subst hx
        subst hy
        show pp.id ∈ cur.parentIds
        rw [hppid]
        exact hmemid
      · rcases List.exists_cons_of_ne_nil hne with ⟨h0, t0, heq0⟩
        rw [heq0]
        rw [heq0] at hhd
        simpa using hhd
      · intro x hx
        rcases List.mem_append.mp hx with hx1 | hx2
        · exact hmem x hx1
        · rw [List.mem_singleton] at hx2
          subst hx2
          exact getPersonById_mem hpp
      · rcases List.exists_cons_of_ne_nil hne with ⟨h0, t0, heq0⟩
        rw [heq0]
        simp
      · exact List.getLast?_concat _
  | case4 visited pid path rest cur hcur pr hprnone ih =>
    intro hinv l h
    rw [bfsPathLoop] at h
    split at h
    · next hlk2 =>
      rw [hcur] at hlk2
      cases hlk2
    · next cur2 hcur2 =>
      rw [hcur] at hcur2
      injection hcur2 with hcur3
      subst hcur3
      have hnone2 : (processParents allPeople endId path cur.parentIds visited).1 =
          none := hprnone
      simp only [hnone2] at h
      apply ih _ l h
      intro it hit
      rcases List.mem_append.mp hit with hit1 | hit2
      · exact hinv it (List.mem_cons_of_mem _ hit1)
      · have heq : processParents allPeople endId path cur.parentIds visited =
            ((processParents allPeople endId path cur.parentIds visited).1,
             (processParents allPeople endId path cur.parentIds visited).2.1,
             (processParents allPeople endId path cur.parentIds visited).2.2) := rfl
        have hfacts := processParents_adds heq it hit2
        rcases hfacts with ⟨hid, _, _, pp, hpp, hpath⟩
        have hhead := hinv (pid, path) (List.mem_cons_self _ _)
        simp only [PathItemInv] at hhead
        rcases hhead with ⟨hne, hch, hhd, hmem, p, hlkp, hlast⟩
        have hpcur : p = cur := by
          rw [hlkp] at hcur
          injection hcur
        rw [hpcur] at hlast
        refine ⟨?_, ?_, ?_, ?_, pp, hpp, ?_⟩
        · rw [hpath]
          simp
        · rw [hpath, List.chain'_append]
          refine ⟨hch, List.chain'_singleton _, ?_⟩
          intro x hx y hy
          rw [hlast] at hx
          simp only [List.head?_cons, Option.mem_def, Option.some_inj] at hx hy
          subst hx
          subst hy
          show pp.id ∈ cur.parentIds
          rw [getPersonById_id hpp]
          exact hid
        · rw [hpath]
          rcases List.exists_cons_of_ne_nil hne with ⟨h0, t0, heq0⟩
          rw [heq0]
          rw [heq0] at hhd
          simpa using hhd
        · rw [hpath]
          intro x hx
          rcases List.mem_append.mp hx with hx1 | hx2
          · exact hmem x hx1
          · rw [List.mem_singleton] at hx2
            subst hx2
            exact getPersonById_mem hpp
        · rw [hpath]
          exact List.getLast?_concat _

theorem getPathToAncestor_sound {allPeople : List Person} {startId endId : String}
    {l : List Person} (h : getPathToAncestor allPeople startId endId = some l) :
    ∃ sp, getPersonById startId allPeople = some sp ∧ sp.id = startId ∧
      l.Chain' parentStep ∧ l.head? = some sp ∧ (∀ x ∈ l, x ∈ allPeople) ∧
      ∃ ep, getPersonById endId allPeople = some ep ∧ ep.id = endId ∧
        l.getLast? = some ep := by
  unfold getPathToAncestor at h
  split at h
  · cases h
  · next sp hsp =>
    split at h
    · next heqid =>
      injection h with hl
      subst hl
      refine ⟨sp, hsp, getPersonById_id hsp, ?_, rfl, ?_, sp, ?_, ?_, rfl⟩
      · exact List.chain'_singleton _
      · intro x hx
        rw [List.mem_singleton] at hx
        subst hx
        exact getPersonById_mem hsp
      · rw [← heqid]
        exact hsp
      · rw [getPersonById_id hsp, heqid]
    · next hne =>
      have hsnd := bfsPathLoop_sound allPeople endId sp [(startId, [sp])] [startId] ?_ l h
      · rcases hsnd with ⟨hch, hhd, hmem, _, ep, hep, hepid, hlast⟩
        exact ⟨sp, hsp, getPersonById_id hsp, hch, hhd, hmem, ep, hep, hepid, hlast⟩
      · intro it hit
        rw [List.mem_singleton] at hit
        subst hit
        refine ⟨by simp, List.chain'_singleton _, rfl, ?_, sp, hsp, rfl⟩
        intro x hx
        rw [List.mem_singleton] at hx
        subst hx
        exact getPersonById_mem hsp

theorem getPathToAncestor_self {allPeople : List Person} {startId : String} {l : List Person}
    (h : getPathToAncestor allPeople startId startId = some l) : l.length = 1 := by
  unfold getPathToAncestor at h
  split at h
  · cases h
  · rw [if_pos rfl] at h
    injection h with hl
    rw [← hl]
    rfl

theorem collectAncestorsLoop_assoc (allPeople : List Person) (queue visited : List String)
    (anc : List (String × Person)) :
    (∀ kv ∈ anc, getPersonById kv.1 allPeople = some kv.2 ∧ kv.2.id = kv.1) →
    ∀ kv ∈ collectAncestorsLoop allPeople queue visited anc,
      getPersonById kv.1 allPeople = some kv.2 ∧ kv.2.id = kv.1 := by
  induction queue, visited, anc using collectAncestorsLoop.induct allPeople with
  | case1 visited anc =>
    intro hacc
    rw [collectAncestorsLoop]
    exact hacc
  | case2 visited anc currentId rest hvis ih =>
    intro hacc
    rw [collectAncestorsLoop]
    rw [dif_pos hvis]
    exact ih hacc
  | case3 visited anc currentId rest hvis hlk ih =>
    intro hacc
    rw [collectAncestorsLoop]
    rw [dif_neg hvis]
    split
    · exact ih hacc
    · next q hq =>
      rw [hlk] at hq
      cases hq
  | case4 visited anc currentId rest hvis person hlk ih =>
    intro hacc
    rw [collectAncestorsLoop]
    rw [dif_neg hvis]
    split
    · next hq =>
      rw [hlk] at hq
      cases hq
    · next q hq =>
      rw [hlk] at hq
      injection hq with hq2
      subst hq2
      apply ih
      intro kv hkv
      rcases List.mem_append.mp hkv with hkv1 | hkv2
      · exact hacc kv hkv1
      · rw [List.mem_singleton] at hkv2
        subst hkv2
        exact ⟨hlk, getPersonById_id hlk⟩

theorem collectAncestorsLoop_closure (allPeople : List Person) (root : Person)
    (queue visited : List String) (anc : List (String × Person)) :
    (∀ id ∈ queue, (∃ c, Connected allPeople root c ∧ id ∈ c.parentIds) ∨
      getPersonById id allPeople = some root) →
    (∀ kv ∈ anc, Connected allPeople root kv.2) →
    ∀ kv ∈ collectAncestorsLoop allPeople queue visited anc,
      Connected allPeople root kv.2 := by
  induction queue, visited, anc using collectAncestorsLoop.induct allPeople with
  | case1 visited anc =>
    intro _ hacc
    rw [collectAncestorsLoop]
    exact hacc
  | case2 visited anc currentId rest hvis ih =>
    intro hq hacc
    rw [collectAncestorsLoop]
    rw [dif_pos hvis]
    exact ih (fun id hid => hq id (List.mem_cons_of_mem _ hid)) hacc
  | case3 visited anc currentId rest hvis hlk ih =>
    intro hq hacc
    rw [collectAncestorsLoop]
    rw [dif_neg hvis]
    split
    · exact ih (fun id hid => hq id (List.mem_cons_of_mem _ hid)) hacc
    · next q hq2 =>
      rw [hlk] at hq2
      cases hq2
  | case4 visited anc currentId rest hvis person hlk ih =>
    intro hq hacc
    rw [collectAncestorsLoop]
    rw [dif_neg hvis]
    split
    · next hq2 =>
      rw [hlk] at hq2
      cases hq2
    · next q hq2 =>
      rw [hlk] at hq2
      injection hq2 with hq3
      subst hq3
      have hconn : Connected allPeople root person := by
        rcases hq currentId (List.mem_cons_self _ _) with ⟨c, hc, hcid⟩ | hroot
        · refine Relation.ReflTransGen.tail hc ⟨getPersonById_mem hlk, ?_⟩
          left
          rw [getPersonById_id hlk]
          exact hcid
        · have hpr2 : person = root := by
            rw [hroot] at hlk
            injection hlk with h2
            exact h2.symm
          rw [hpr2]
          exact connected_refl
      apply ih
      · intro id hid
        rcases List.mem_append.mp hid with hid1 | hid2
        · exact hq id (List.mem_cons_of_mem _ hid1)
        · exact Or.inl ⟨person, hconn, hid2⟩
      · intro kv hkv
        rcases List.mem_append.mp hkv with hkv1 | hkv2
        · exact hacc kv hkv1
        · rw [List.mem_singleton] at hkv2
          subst hkv2
          exact hconn

theorem lcaSearchLoop_provenance (allPeople : List Person) (anc : List (String × Person))
    (person1Id person2Id : String) (queue visited : List String) :
    ∀ r, lcaSearchLoop allPeople anc person1Id person2Id queue visited = some r →
      (∃ kv, kv ∈ anc ∧ kv.2 = r.lca) ∧
      getPathToAncestor allPeople person1Id r.lca.id = some r.path1 ∧
      getPathToAncestor allPeople person2Id r.lca.id = some r.path2 := by
  induction queue, visited using lcaSearchLoop.induct allPeople anc person1Id person2Id with
  | case1 visited =>
    intro r h
    rw [lcaSearchLoop] at h
    cases h
  | case2 visited currentId rest hit r0 heq =>
    intro r h
    rw [lcaSearchLoop] at h
    have hfull : (match anc.find? (fun kv => kv.1 == currentId) with
        | some kv =>
          match getPathToAncestor allPeople person1Id kv.2.id,
                getPathToAncestor allPeople person2Id kv.2.id with
          | some path1, some path2 => some ⟨kv.2, path1, path2⟩
          | _, _ => Option.none
        | Option.none => Option.none) = some r0 := heq
    simp only [hfull] at h
    injection h with hr
    subst hr
    split at hfull
    · next kv hkv =>
      split at hfull
      · next path1 path2 hp1 hp2 =>
        injection hfull with hr2
        subst hr2
        exact ⟨⟨kv, List.mem_of_find?_eq_some hkv, rfl⟩, hp1, hp2⟩
      · next hnp =>
        cases hfull
    · cases hfull
  | case3 visited currentId rest hit heq hlk ih =>
    intro r h
    rw [lcaSearchLoop] at h
    have hfull : (match anc.find? (fun kv => kv.1 == currentId) with
        | some kv =>
          match getPathToAncestor allPeople person1Id kv.2.id,
                getPathToAncestor allPeople person2Id kv.2.id with
          | some path1, some path2 => some (LcaResult.mk kv.2 path1 path2)
          | _, _ => Option.none
        | Option.none => Option.none) = Option.none := heq
    simp only [hfull] at h
    split at h
    · exact ih r h
    · next q hq =>
      rw [hlk] at hq
      cases hq
  | case4 visited currentId rest hit heq person hlk ih =>
    intro r h
    rw [lcaSearchLoop] at h
    have hfull : (match anc.find? (fun kv => kv.1 == currentId) with
        | some kv =>
          match getPathToAncestor allPeople person1Id kv.2.id,
                getPathToAncestor allPeople person2Id kv.2.id with
          | some path1, some path2 => some (LcaResult.mk kv.2 path1 path2)
          | _, _ => Option.none
        | Option.none => Option.none) = Option.none := heq
    simp only [hfull] at h
    split at h
    · next hq =>
      rw [hlk] at hq
      cases hq
    · next q hq =>
      rw [hlk] at hq
      injection hq with hq2
      subst hq2
      exact ih r h

theorem findLcaAndPaths_sound {person1Id person2Id : String} {allPeople : List Person}
    {r : LcaResult} (h : findLcaAndPaths person1Id person2Id allPeople = some r) :
    getPersonById r.lca.id allPeople = some r.lca ∧
    getPathToAncestor allPeople person1Id r.lca.id = some r.path1 ∧
    getPathToAncestor allPeople person2Id r.lca.id = some r.path2 := by
  unfold findLcaAndPaths at h
  have hprov := lcaSearchLoop_provenance allPeople _ person1Id person2Id _ _ r h
  rcases hprov with ⟨⟨kv, hkvmem, hkv2⟩, hp1, hp2⟩
  have hassoc := collectAncestorsLoop_assoc allPeople [person1Id] [] []
    (by intro kv2 h2; cases h2) kv hkvmem
  refine ⟨?_, hp1, hp2⟩
  rw [← hkv2, hassoc.2]
  exact hassoc.1

theorem findLcaAndPaths_self1 {person1Id person2Id : String} {allPeople : List Person}
    {r : LcaResult} (h : findLcaAndPaths person1Id person2Id allPeople = some r)
    (hid : r.lca.id = person1Id) : r.path1.length = 1 := by
  have hs := findLcaAndPaths_sound h
  rw [hid] at hs
  exact getPathToAncestor_self hs.2.1

theorem findLcaAndPaths_self2 {person1Id person2Id : String} {allPeople : List Person}
    {r : LcaResult} (h : findLcaAndPaths person1Id person2Id allPeople = some r)
    (hid : r.lca.id = person2Id) : r.path2.length = 1 := by
  have hs := findLcaAndPaths_sound h
  rw [hid] at hs
  exact getPathToAncestor_self hs.2.2

/-- Three-generation chain with mirrored parent and child links, male
grandparent variant. -/
def chainG : Person :=
  { id := "G", firstName := "G", gender := Gender.Male, childrenIds := ["P"] }

def chainP : Person :=
  { id := "P", firstName := "P", gender := Gender.Male, parentIds := ["G"],
    childrenIds := ["C"] }

def chainC : Person :=
  { id := "C", firstName := "C", gender := Gender.Male, parentIds := ["P"] }

def chainPeople : List Person := [chainG, chainP, chainC]

/-- Three-generation chain, female grandparent variant. -/
def chainGF : Person :=
  { id := "G", firstName := "G", gender := Gender.Female, childrenIds := ["P"] }

def chainPF : Person :=
  { id := "P", firstName := "P", gender := Gender.Male, parentIds := ["G"],
    childrenIds := ["C"] }

def chainCF : Person :=
  { id := "C", firstName := "C", gender := Gender.Male, parentIds := ["P"] }

def chainPeopleF : List Person := [chainGF, chainPF, chainCF]

/-- C1: on the three-generation chain graph (grandparent G, parent P,
child C, with mirrored parentIds and childrenIds), findLcaAndPaths from
C to G returns the LCA result with lca G, path1 = [C, P, G] and
path2 = [G]; the resulting blood-relationship description at generation
distance d1 = 2 is Grandfather for a male G and Grandmother for a
female G. -/
theorem C1_lca_three_generation_chain :
    findLcaAndPaths "C" "G" chainPeople =
      some ⟨chainG, [chainC, chainP, chainG], [chainG]⟩ ∧
    findRelationship "C" "G" chainPeople =
      some (Relationship.blood "Grandfather" [chainC, chainP, chainG] [chainG] chainG) ∧
    findLcaAndPaths "C" "G" chainPeopleF =
      some ⟨chainGF, [chainCF, chainPF, chainGF], [chainGF]⟩ ∧
    findRelationship "C" "G" chainPeopleF =
      some (Relationship.blood "Grandmother" [chainCF, chainPF, chainGF] [chainGF] chainGF) := by
  refine ⟨?_, ?_, ?_, ?_⟩ <;>
    simp +decide [findLcaAndPaths, collectAncestorsLoop, lcaSearchLoop, getPathToAncestor,
      bfsPathLoop, processParents, pushUnvisited, getPersonById, List.find?, findRelationship,
      describeBloodRelationship, genderedTerm, greatRepeat, chainG, chainP, chainC, chainPeople,
      chainGF, chainPF, chainCF, chainPeopleF]

theorem length_le_of_nodup_mem {l ps : List Person}
    (hmem : ∀ a ∈ l, a ∈ ps) (hnd : (l.map Person.id).Nodup) : l.length ≤ ps.length := by
  have h1 : (l.map Person.id).toFinset.card = (l.map Person.id).length :=
    List.toFinset_card_of_nodup hnd
  have h2 : (l.map Person.id).toFinset ⊆ (ps.map Person.id).toFinset := by
    intro x hx
    rw [List.mem_toFinset] at *
    rcases List.mem_map.mp hx with ⟨a, ha, rfl⟩
    exact List.mem_map.mpr ⟨a, hmem a ha, rfl⟩
  have h3 := Finset.card_le_card h2
  have h4 : (ps.map Person.id).toFinset.card ≤ (ps.map Person.id).length :=
    List.toFinset_card_le _
  rw [List.length_map] at h1 h4
  omega

theorem getAncestorsLoop_invariant (allPeople : List Person) (queue visited : List String)
    (ancestors : List Person) :
    (∀ a ∈ ancestors, a ∈ allPeople) → (ancestors.map Person.id).Nodup →
    (∀ a ∈ ancestors, a.id ∈ visited) →
    (∀ a ∈ getAncestorsLoop allPeople queue visited ancestors, a ∈ allPeople) ∧
    ((getAncestorsLoop allPeople queue visited ancestors).map Person.id).Nodup := by
  induction queue, visited, ancestors using getAncestorsLoop.induct allPeople with
  | case1 visited ancestors =>
    intro hmem hnd _
    rw [getAncestorsLoop]
    exact ⟨hmem, hnd⟩
  | case2 visited ancestors personId rest hskip ih =>
    intro hmem hnd hvis
    rw [getAncestorsLoop]
    rw [dif_pos hskip]
    exact ih hmem hnd hvis
  | case3 visited ancestors personId rest hskip hlk ih =>
    intro hmem hnd hvis
    rw [getAncestorsLoop]
    rw [dif_neg hskip]
    split
    · exact ih hmem hnd (fun a ha => List.mem_cons_of_mem _ (hvis a ha))
    · next q hq =>
      rw [hlk] at hq
      cases hq
  | case4 visited ancestors personId rest hskip p hlk ih =>
    intro hmem hnd hvis
    rw [getAncestorsLoop]
    rw [dif_neg hskip]
    split
    · next hq =>
      rw [hlk] at hq
      cases hq
    · next q hq =>
      rw [hlk] at hq
      injection hq with hq2
      subst hq2
      apply ih
      · intro a ha
        rcases List.mem_append.mp ha with ha1 | ha2
        · exact hmem a ha1
        · rw [List.mem_singleton] at ha2
          subst ha2
          exact getPersonById_mem hlk
      · rw [List.map_append]
        rw [List.nodup_append]
        refine ⟨hnd, by simp, ?_⟩
        intro x hx
        rcases List.mem_map.mp hx with ⟨a, ha, rfl⟩
        simp only [List.map_cons, List.map_nil, List.mem_singleton]
        intro hax
        apply hskip
        left
        rw [← getPersonById_id hlk, ← hax]
        exact hvis a ha
      · intro a ha
        rcases List.mem_append.mp ha with ha1 | ha2
        · exact List.mem_cons_of_mem _ (hvis a ha1)
        · rw [List.mem_singleton] at ha2
          subst ha2
          rw [getPersonById_id hlk]
          exact List.mem_cons_self _ _

theorem getAncestors_length_le (person : Person) (allPeople : List Person) :
    (getAncestors person allPeople).length ≤ allPeople.length := by
  have h := getAncestorsLoop_invariant allPeople person.parentIds [] []
    (by intro a ha; cases ha) (by simp) (by intro a ha; cases ha)
  exact length_le_of_nodup_mem h.1 h.2

theorem getAncestorsHierarchicallyLoop_invariant (allPeople : List Person)
    (queue : List (String × Nat)) (visited : List String) (results : List (Person × Nat)) :
    (∀ pr ∈ results, pr.1 ∈ allPeople) → (results.map (fun pr => pr.1.id)).Nodup →
    (∀ pr ∈ results, pr.1.id ∈ visited) →
    (∀ pr ∈ getAncestorsHierarchicallyLoop allPeople queue visited results,
      pr.1 ∈ allPeople) ∧
    ((getAncestorsHierarchicallyLoop allPeople queue visited results).map
      (fun pr => pr.1.id)).Nodup := by
  induction queue, visited, results using getAncestorsHierarchicallyLoop.induct allPeople with
  | case1 visited results =>
    intro hmem hnd _
    rw [getAncestorsHierarchicallyLoop]
    exact ⟨hmem, hnd⟩
  | case2 visited results personId level rest hskip ih =>
    intro hmem hnd hvis
    rw [getAncestorsHierarchicallyLoop]
    rw [dif_pos hskip]
    exact ih hmem hnd hvis
  | case3 visited results personId level rest hskip hlk ih =>
    intro hmem hnd hvis
    rw [getAncestorsHierarchicallyLoop]
    rw [dif_neg hskip]
    split
    · exact ih hmem hnd (fun a ha => List.mem_cons_of_mem _ (hvis a ha))
    · next q hq =>
      rw [hlk] at hq
      cases hq
  | case4 visited results personId level rest hskip p hlk ih =>
    intro hmem hnd hvis
    rw [getAncestorsHierarchicallyLoop]
    rw [dif_neg hskip]
    split
    · next hq =>
      rw [hlk] at hq
      cases hq
    · next q hq =>
      rw [hlk] at hq
      injection hq with hq2
      subst hq2
      apply ih
      · intro a ha
        rcases List.mem_append.mp ha with ha1 | ha2
        · exact hmem a ha1
        · rw [List.mem_singleton] at ha2
          subst ha2
          exact getPersonById_mem hlk
      · rw [List.map_append]
        rw [List.nodup_append]
        refine ⟨hnd, by simp, ?_⟩
        intro x hx
        rcases List.mem_map.mp hx with ⟨a, ha, rfl⟩
        simp only [List.map_cons, List.map_nil, List.mem_singleton]
        intro hax
        apply hskip
        right
        rw [← getPersonById_id hlk, ← hax]
        exact hvis a ha
      · intro a ha
        rcases List.mem_append.mp ha with ha1 | ha2
        · exact List.mem_cons_of_mem _ (hvis a ha1)
        · rw [List.mem_singleton] at ha2
          subst ha2
          simp only
          rw [getPersonById_id hlk]
          exact List.mem_cons_self _ _

theorem getAncestorsHierarchically_length_le (person : Person) (allPeople : List Person) :
    (getAncestorsHierarchically person allPeople).length ≤ allPeople.length := by
  have h := getAncestorsHierarchicallyLoop_invariant allPeople
    (person.parentIds.map (fun id => (id, 1))) [] []
    (by intro a ha; cases ha) (by simp) (by intro a ha; cases ha)
  have hlen : ((getAncestorsHierarchically person allPeople).map Prod.fst).length ≤
      allPeople.length := by
    apply length_le_of_nodup_mem
    · intro a ha
      rcases List.mem_map.mp ha with ⟨pr, hpr, rfl⟩
      exact h.1 pr hpr
    · rw [List.map_map]
      exact h.2
  rw [List.length_map] at hlen
  exact hlen

/-- Two-person parent cycle (corrupted data). -/
def cycA : Person := { id := "A", firstName := "A", parentIds := ["B"] }

def cycB : Person := { id := "B", firstName := "B", parentIds := ["A"] }

def cycPeople : List Person := [cycA, cycB]

/-- C6: every ancestor walk is bounded by the visited set, so it is a
total function whose result list is no longer than the person
collection; on the two-person parent cycle both walks terminate with
the expected finite results. -/
theorem C6_ancestor_walks_terminate :
    (∀ (person : Person) (allPeople : List Person),
      (getAncestors person allPeople).length ≤ allPeople.length ∧
      (getAncestorsHierarchically person allPeople).length ≤ allPeople.length) ∧
    getAncestors cycA cycPeople = [cycB, cycA] ∧
    getAncestorsHierarchically cycA cycPeople = [(cycB, 1), (cycA, 2)] := by
  refine ⟨fun person allPeople => ⟨getAncestors_length_le person allPeople,
    getAncestorsHierarchically_length_le person allPeople⟩, ?_, ?_⟩
  · simp +decide [getAncestors, getAncestorsLoop, getPersonById, List.find?,
      cycA, cycB, cycPeople]
  · simp +decide [getAncestorsHierarchically, getAncestorsHierarchicallyLoop, getPersonById,
      List.find?, cycA, cycB, cycPeople]

/-- Modelled from the claim wording for C2: the standard English
ordinal suffix, st/nd/rd by last digit and th otherwise, with the
11 to 13 exception mapping to th. -/
def specOrdinalSuffix (n : Nat) : String :=
  if n % 100 = 11 ∨ n % 100 = 12 ∨ n % 100 = 13 then "th"
  else if n % 10 = 1 then "st"
  else if n % 10 = 2 then "nd"
  else if n % 10 = 3 then "rd"
  else "th"

/-- Modelled from the claim wording for C2: the number followed by its
ordinal suffix. -/
def specOrdinal (n : Nat) : String := toString n ++ specOrdinalSuffix n

/-- Modelled from the claim wording for C2: the removal suffix, empty
for equal depths, once and twice removed for one and two, n times
removed beyond. -/
def specRemovalSuffix (r : Nat) : String :=
  if r = 0 then ""
  else if r = 1 then ", once removed"
  else if r = 2 then ", twice removed"
  else ", " ++ toString r ++ " times removed"

/-- Modelled from the claim wording for C2: the complete cousin
description for generation distances d1 and d2. -/
def specCousinDescription (d1 d2 : Nat) : String :=
  specOrdinal (min d1 d2 - 1) ++ " cousin" ++ specRemovalSuffix (max d1 d2 - min d1 d2)

theorem ordinal_suffix_check : ∀ v : Nat, v < 100 →
    ((jsArrayGet ["th", "st", "nd", "rd"] (((v : Int) - 20).tmod 10)).getD
      ((jsArrayGet ["th", "st", "nd", "rd"] (v : Int)).getD "th")) = specOrdinalSuffix v := by
  decide

theorem specOrdinalSuffix_mod (n : Nat) : specOrdinalSuffix (n % 100) = specOrdinalSuffix n := by
  unfold specOrdinalSuffix
  rw [Nat.mod_mod_of_dvd n (by norm_num : (10 : Nat) ∣ 100), Nat.mod_mod_of_dvd n (dvd_refl 100)]

theorem ordinal_eq_spec (n : Nat) (h : 1 ≤ n) : ordinal n = specOrdinal n := by
  have hv : ((n : Int) % 100) = ((n % 100 : Nat) : Int) := by omega
  have hbody : ordinal n = toString n ++
      ((jsArrayGet ["th", "st", "nd", "rd"] ((((n : Int) % 100) - 20).tmod 10)).getD
        ((jsArrayGet ["th", "st", "nd", "rd"] ((n : Int) % 100)).getD "th")) := by
    unfold ordinal
    rw [if_neg (by omega)]
  rw [hbody, hv, ordinal_suffix_check (n % 100) (Nat.mod_lt n (by omega)),
    specOrdinalSuffix_mod]
  rfl

theorem removalTerm_eq_spec (r : Nat) :
    (if r > 0 then
        ", " ++ (if r = 1 then "once" else if r = 2 then "twice"
          else toString r ++ " times") ++ " removed"
      else "") = specRemovalSuffix r := by
  unfold specRemovalSuffix
  match r with
  | 0 => decide
  | 1 => decide
  | 2 => decide
  | (r3 + 3) =>
    rw [if_pos (by omega), if_neg (by omega), if_neg (by omega), if_neg (by omega),
      if_neg (by omega), if_neg (by omega)]
    rw [String.append_assoc, String.append_assoc, String.append_assoc]
    rw [show (" times" ++ " removed" : String) = " times removed" from by decide]

theorem describe_cousin_case (person1 person2 lca : Person) (path1 path2 : List Person)
    (hne1 : lca.id ≠ person1.id) (hne2 : lca.id ≠ person2.id)
    (hd1 : 2 ≤ path1.length - 1) (hd2 : 2 ≤ path2.length - 1) :
    describeBloodRelationship person1 person2 lca path1 path2 =
      specCousinDescription (path1.length - 1) (path2.length - 1) := by
  simp only [describeBloodRelationship]
  rw [if_neg hne1, if_neg hne2]
  rw [if_neg (show ¬(path1.length - 1 = 1 ∧ path2.length - 1 = 1) from by omega)]
  rw [if_neg (show ¬(min (path1.length - 1) (path2.length - 1) - 1 = 0) from by omega)]
  rw [ordinal_eq_spec _ (by omega)]
  rw [removalTerm_eq_spec]
  rfl

/-- C2: for every blood relationship found by the engine in which both
reconstructed paths have generation distance at least two, the
description is the English ordinal of min(d1, d2) - 1 followed by the
word cousin, with the removal suffix determined by the absolute depth
difference. -/
theorem C2_cousin_description (allPeople : List Person) (person1Id person2Id : String)
    (person1 person2 : Person) (r : LcaResult)
    (hp1 : getPersonById person1Id allPeople = some person1)
    (hp2 : getPersonById person2Id allPeople = some person2)
    (h : findLcaAndPaths person1Id person2Id allPeople = some r)
    (hd1 : 2 ≤ r.path1.length - 1) (hd2 : 2 ≤ r.path2.length - 1) :
    describeBloodRelationship person1 person2 r.lca r.path1 r.path2 =
      specCousinDescription (r.path1.length - 1) (r.path2.length - 1) := by
  apply describe_cousin_case
  · intro hcontra
    have := findLcaAndPaths_self1 h (by rw [hcontra, getPersonById_id hp1])
    omega
  · intro hcontra
    have := findLcaAndPaths_self2 h (by rw [hcontra, getPersonById_id hp2])
    omega
  · exact hd1
  · exact hd2

/-- Shared ancestor R, person X two generations below on one branch and
person Y four generations below on the other. -/
def w24R : Person := { id := "R", firstName := "R", childrenIds := ["a1", "b1"] }

def w24a1 : Person := { id := "a1", parentIds := ["R"], childrenIds := ["X"] }

def w24X : Person := { id := "X", gender := Gender.Male, parentIds := ["a1"] }

def w24b1 : Person := { id := "b1", parentIds := ["R"], childrenIds := ["b2"] }

def w24b2 : Person := { id := "b2", parentIds := ["b1"], childrenIds := ["b3"] }

def w24b3 : Person := { id := "b3", parentIds := ["b2"], childrenIds := ["Y"] }

def w24Y : Person := { id := "Y", gender := Gender.Male, parentIds := ["b3"] }

def w24People : List Person := [w24R, w24a1, w24X, w24b1, w24b2, w24b3, w24Y]

/-- Shared ancestor R with both X and Y three generations below. -/
def v33R : Person := { id := "R", firstName := "R", childrenIds := ["c1", "d1"] }

def v33c1 : Person := { id := "c1", parentIds := ["R"], childrenIds := ["c2"] }

def v33c2 : Person := { id := "c2", parentIds := ["c1"], childrenIds := ["X"] }

def v33X : Person := { id := "X", gender := Gender.Male, parentIds := ["c2"] }

def v33d1 : Person := { id := "d1", parentIds := ["R"], childrenIds := ["d2"] }

def v33d2 : Person := { id := "d2", parentIds := ["d1"], childrenIds := ["Y"] }

def v33Y : Person := { id := "Y", gender := Gender.Male, parentIds := ["d2"] }

def v33People : List Person := [v33R, v33c1, v33c2, v33X, v33d1, v33d2, v33Y]

theorem C2_cousin_description_witness :
    describeBloodRelationship w24X w24Y w24R [w24X, w24a1, w24R]
        [w24Y, w24b3, w24b2, w24b1, w24R] = "1st cousin, twice removed" ∧
    describeBloodRelationship v33X v33Y v33R [v33X, v33c2, v33c1, v33R]
        [v33Y, v33d2, v33d1, v33R] = "2nd cousin" := by
  constructor
  · have hl : findLcaAndPaths "X" "Y" w24People =
        some ⟨w24R, [w24X, w24a1, w24R], [w24Y, w24b3, w24b2, w24b1, w24R]⟩ := by
      simp +decide [findLcaAndPaths, collectAncestorsLoop, lcaSearchLoop, getPathToAncestor,
        bfsPathLoop, processParents, pushUnvisited, getPersonById, List.find?, w24R, w24a1,
        w24X, w24b1, w24b2, w24b3, w24Y, w24People]
    have h := C2_cousin_description w24People "X" "Y" w24X w24Y
      ⟨w24R, [w24X, w24a1, w24R], [w24Y, w24b3, w24b2, w24b1, w24R]⟩
      (by decide) (by decide) hl (by decide) (by decide)
    exact h.trans (by decide)
  · have hl : findLcaAndPaths "X" "Y" v33People =
        some ⟨v33R, [v33X, v33c2, v33c1, v33R], [v33Y, v33d2, v33d1, v33R]⟩ := by
      simp +decide [findLcaAndPaths, collectAncestorsLoop, lcaSearchLoop, getPathToAncestor,
        bfsPathLoop, processParents, pushUnvisited, getPersonById, List.find?, v33R, v33c1,
        v33c2, v33X, v33d1, v33d2, v33Y, v33People]
    have h := C2_cousin_description v33People "X" "Y" v33X v33Y
      ⟨v33R, [v33X, v33c2, v33c1, v33R], [v33Y, v33d2, v33d1, v33R]⟩
      (by decide) (by decide) hl (by decide) (by decide)
    exact h.trans (by decide)

/-- Modelled from the claim C4 wording: niece or nephew by the gender
of person 2 when person 1 is closer to the LCA, uncle or aunt when
person 2 is closer, prefixed with Grand- once per extra generation
beyond the first degree of removal. -/
def claimAuntUncleDescription (g : Gender) (d1 d2 : Nat) : String :=
  String.join (List.replicate (max d1 d2 - min d1 d2 - 1) "Grand-") ++
  (if d1 < d2 then genderedTerm g "nephew" "niece" "nephew/niece"
   else genderedTerm g "uncle" "aunt" "aunt/uncle")

/-- The claim C4 as amended: the same gendered terms, but a single
Grand prefix whenever the removal exceeds one, regardless of how many
extra generations there are. -/
def amendedAuntUncleDescription (g : Gender) (d1 d2 : Nat) : String :=
  (if max d1 d2 - min d1 d2 > 1 then "Grand" else "") ++
  (if d1 < d2 then genderedTerm g "nephew" "niece" "nephew/niece"
   else genderedTerm g "uncle" "aunt" "aunt/uncle")

theorem describe_auntuncle_case (person1 person2 lca : Person) (path1 path2 : List Person)
    (hne1 : lca.id ≠ person1.id) (hne2 : lca.id ≠ person2.id)
    (hmin : min (path1.length - 1) (path2.length - 1) = 1)
    (hned : path1.length - 1 ≠ path2.length - 1) :
    describeBloodRelationship person1 person2 lca path1 path2 =
      amendedAuntUncleDescription person2.gender (path1.length - 1) (path2.length - 1) := by
  simp only [describeBloodRelationship]
  rw [if_neg hne1, if_neg hne2]
  rw [if_neg (show ¬(path1.length - 1 = 1 ∧ path2.length - 1 = 1) from by omega)]
  rw [if_pos (show min (path1.length - 1) (path2.length - 1) - 1 = 0 from by omega)]
  unfold amendedAuntUncleDescription
  by_cases hlt : path1.length - 1 < path2.length - 1
  · rw [if_pos hlt, if_pos hlt]
  · rw [if_neg hlt, if_neg hlt]

/-- Ancestor R with child X (one generation) and great-great-grandchild
Y (four generations) on the other branch: removal three. -/
def c4R : Person := { id := "R", firstName := "R", childrenIds := ["X", "b1"] }

def c4X : Person := { id := "X", gender := Gender.Male, parentIds := ["R"] }

def c4b1 : Person := { id := "b1", parentIds := ["R"], childrenIds := ["b2"] }

def c4b2 : Person := { id := "b2", parentIds := ["b1"], childrenIds := ["b3"] }

def c4b3 : Person := { id := "b3", parentIds := ["b2"], childrenIds := ["Y"] }

def c4Y : Person := { id := "Y", gender := Gender.Male, parentIds := ["b3"] }

def c4People : List Person := [c4R, c4X, c4b1, c4b2, c4b3, c4Y]

/-- C4 counterexample: at generation distances d1 = 1 and d2 = 4
(removal three) the engine produces the single-prefix term Grandnephew,
whereas the claim formula repeats the prefix once per extra generation
and predicts Grand-Grand-nephew; the two differ with or without the
hyphen reading of the claim. -/
theorem C4_auntuncle_counterexample :
    findRelationship "X" "Y" c4People =
      some (Relationship.blood "Grandnephew" [c4X, c4R]
        [c4Y, c4b3, c4b2, c4b1, c4R] c4R) ∧
    claimAuntUncleDescription Gender.Male 1 4 = "Grand-Grand-nephew" ∧
    ("Grandnephew" : String) ≠ "Grand-Grand-nephew" ∧
    ("Grandnephew" : String) ≠ "GrandGrandnephew" := by
  refine ⟨?_, by decide, by decide, by decide⟩
  simp +decide [findRelationship, findLcaAndPaths, collectAncestorsLoop, lcaSearchLoop,
    getPathToAncestor, bfsPathLoop, processParents, pushUnvisited, getPersonById, List.find?,
    describeBloodRelationship, genderedTerm, c4R, c4X, c4b1, c4b2, c4b3, c4Y, c4People]

/-- C4 as amended: for every blood relationship found by the engine
with min(d1, d2) = 1 and d1 different from d2, the description is
niece/nephew when person 1 is closer to the LCA and uncle/aunt when
person 2 is closer, by the gender of person 2, with a single Grand
prefix exactly when the removal exceeds one. -/
theorem C4_auntuncle_amended (allPeople : List Person) (person1Id person2Id : String)
    (person1 person2 : Person) (r : LcaResult)
    (hp1 : getPersonById person1Id allPeople = some person1)
    (hp2 : getPersonById person2Id allPeople = some person2)
    (h : findLcaAndPaths person1Id person2Id allPeople = some r)
    (hmin : min (r.path1.length - 1) (r.path2.length - 1) = 1)
    (hned : r.path1.length - 1 ≠ r.path2.length - 1) :
    describeBloodRelationship person1 person2 r.lca r.path1 r.path2 =
      amendedAuntUncleDescription person2.gender (r.path1.length - 1)
        (r.path2.length - 1) := by
  apply describe_auntuncle_case
  · intro hcontra
    have := findLcaAndPaths_self1 h (by rw [hcontra, getPersonById_id hp1])
    omega
  · intro hcontra
    have := findLcaAndPaths_self2 h (by rw [hcontra, getPersonById_id hp2])
    omega
  · exact hmin
  · exact hned

theorem C4_auntuncle_amended_witness :
    describeBloodRelationship c4X c4Y c4R [c4X, c4R] [c4Y, c4b3, c4b2, c4b1, c4R] =
      "Grandnephew" := by
  have hl : findLcaAndPaths "X" "Y" c4People =
      some ⟨c4R, [c4X, c4R], [c4Y, c4b3, c4b2, c4b1, c4R]⟩ := by
    simp +decide [findLcaAndPaths, collectAncestorsLoop, lcaSearchLoop, getPathToAncestor,
      bfsPathLoop, processParents, pushUnvisited, getPersonById, List.find?, c4R, c4X, c4b1,
      c4b2, c4b3, c4Y, c4People]
  have h := C4_auntuncle_amended c4People "X" "Y" c4X c4Y
    ⟨c4R, [c4X, c4R], [c4Y, c4b3, c4b2, c4b1, c4R]⟩ (by decide) (by decide) hl
    (by decide) (by decide)
  exact h.trans (by decide)

/-- C8: a self query is rejected by the id guard before any lookup or
traversal: findRelationship returns the null sentinel and
findAllRelationships returns the empty list. -/
theorem C8_self_query_rejected (allPeople : List Person) (personId : String) :
    findRelationship personId personId allPeople = Option.none ∧
    findAllRelationships personId personId allPeople = [] := by
  constructor
  · rw [findRelationship]
    rw [if_pos (Or.inr (Or.inr rfl))]
  · rw [findAllRelationships]
    split
    · rw [if_pos rfl]
    · rfl

/-- C3: a direct marriage of person 1 to the queried id of person 2 is
reported before any blood-relationship computation, as the single
gendered term with the two-person path.  The guard hypotheses require
two distinct, existing people with non-empty ids; the statement places
no restriction on shared ancestry. -/
theorem C3_marriage_precedence (allPeople : List Person) (person1Id person2Id : String)
    (person1 person2 : Person)
    (h1 : person1Id ≠ "") (h2 : person2Id ≠ "") (hne : person1Id ≠ person2Id)
    (hp1 : getPersonById person1Id allPeople = some person1)
    (hp2 : getPersonById person2Id allPeople = some person2)
    (hm : person1.marriages.any (fun m => m.spouseId == person2Id) = true) :
    findRelationship person1Id person2Id allPeople =
      some (Relationship.path (genderedTerm person2.gender "Husband" "Wife" "Spouse")
        [person1, person2]) := by
  rw [findRelationship]
  rw [if_neg (by simp [h1, h2, hne])]
  simp only [hp1, hp2, hm, if_true]

/-- Siblings A and B, children of F, married to each other. -/
def sibF : Person := { id := "F", gender := Gender.Male, childrenIds := ["A", "B"] }

def sibA : Person :=
  { id := "A", gender := Gender.Male, parentIds := ["F"],
    marriages := [{ spouseId := "B", status := MarriageStatus.Married }] }

def sibB : Person :=
  { id := "B", gender := Gender.Female, parentIds := ["F"],
    marriages := [{ spouseId := "A", status := MarriageStatus.Married }] }

def sibPeople : List Person := [sibF, sibA, sibB]

theorem C3_marriage_precedence_witness :
    findRelationship "A" "B" sibPeople =
      some (Relationship.path "Wife" [sibA, sibB]) := by
  have h := C3_marriage_precedence sibPeople "A" "B" sibA sibB
    (by decide) (by decide) (by decide) (by decide) (by decide) (by decide)
  exact h.trans (by decide)

/-- C5: every result of findLcaAndPaths carries two faithfully
reconstructed paths: each consecutive step of path1 and path2 is a
child-to-parent edge of the graph (the id of the next person is among
the parent ids of the current person), path1 starts at person 1 and
path2 at person 2, and both end at the reported lowest common
ancestor. -/
theorem C5_path_reconstruction (allPeople : List Person) (person1Id person2Id : String)
    (r : LcaResult) (h : findLcaAndPaths person1Id person2Id allPeople = some r) :
    r.path1.Chain' parentStep ∧ r.path2.Chain' parentStep ∧
    r.path1.head? = getPersonById person1Id allPeople ∧
    r.path2.head? = getPersonById person2Id allPeople ∧
    r.path1.getLast? = some r.lca ∧ r.path2.getLast? = some r.lca := by
  have hs := findLcaAndPaths_sound h
  rcases hs with ⟨hlca, hp1, hp2⟩
  have h1 := getPathToAncestor_sound hp1
  have h2 := getPathToAncestor_sound hp2
  rcases h1 with ⟨sp1, hsp1, _, hch1, hhd1, _, ep1, hep1, _, hlast1⟩
  rcases h2 with ⟨sp2, hsp2, _, hch2, hhd2, _, ep2, hep2, _, hlast2⟩
  have hep1lca : ep1 = r.lca := by
    rw [hlca] at hep1
    injection hep1 with h3
    exact h3.symm
  have hep2lca : ep2 = r.lca := by
    rw [hlca] at hep2
    injection hep2 with h3
    exact h3.symm
  refine ⟨hch1, hch2, ?_, ?_, ?_, ?_⟩
  · rw [hhd1, hsp1]
  · rw [hhd2, hsp2]
  · rw [hlast1, hep1lca]
  · rw [hlast2, hep2lca]

theorem C5_path_reconstruction_witness :
    List.Chain' parentStep [chainC, chainP, chainG] ∧
    List.Chain' parentStep ([chainG] : List Person) ∧
    ([chainC, chainP, chainG] : List Person).head? = getPersonById "C" chainPeople ∧
    ([chainG] : List Person).head? = getPersonById "G" chainPeople ∧
    ([chainC, chainP, chainG] : List Person).getLast? = some chainG ∧
    ([chainG] : List Person).getLast? = some chainG := by
  have hl : findLcaAndPaths "C" "G" chainPeople =
      some ⟨chainG, [chainC, chainP, chainG], [chainG]⟩ := by
    simp +decide [findLcaAndPaths, collectAncestorsLoop, lcaSearchLoop, getPathToAncestor,
      bfsPathLoop, processParents, pushUnvisited, getPersonById, List.find?,
      chainG, chainP, chainC, chainPeople]
  have h := C5_path_reconstruction chainPeople "C" "G"
    ⟨chainG, [chainC, chainP, chainG], [chainG]⟩ hl
  simpa using h

/-- For a person 2 of gender Other the in-law description is the empty
string at every generation, so the marriage loop of branch C never
produces a result. -/
theorem inLawLoop_other (allPeople : List Person) (person1Id : String)
    (person1 person2 : Person) (hg : person2.gender = Gender.Other) :
    ∀ ms, inLawLoop allPeople person1Id person1 person2 ms = Option.none := by
  intro ms
  induction ms with
  | nil => rfl
  | cons m rest ih =>
    rcases hsp : getPersonById m.spouseId allPeople with _ | sp
    · simp only [inLawLoop, hsp]
      exact ih
    · rcases hbr : findLcaAndPaths person1Id sp.id allPeople with _ | br
      · simp only [inLawLoop, hsp, hbr]
        exact ih
      · simp only [inLawLoop, hsp, hbr]
        by_cases hlid : br.lca.id = person1Id
        · rw [if_pos hlid, hg]
          simp only [inLawDesc]
          rw [if_pos trivial]
          exact ih
        · rw [if_neg hlid]
          exact ih

/-- C10: when person 2 has gender Other, the Bahu/Damad in-law branch of
findRelationship builds an empty description and falls through, so with
no direct marriage and no blood tie the result is exactly what the
generic path finder yields, defaulted to the fixed none relationship. -/
theorem C10_other_gender_no_inlaw (allPeople : List Person) (person1Id person2Id : String)
    (person1 person2 : Person)
    (h1 : person1Id ≠ "") (h2 : person2Id ≠ "") (hne : person1Id ≠ person2Id)
    (hp1 : getPersonById person1Id allPeople = some person1)
    (hp2 : getPersonById person2Id allPeople = some person2)
    (hg : person2.gender = Gender.Other)
    (hm : person1.marriages.any (fun m => m.spouseId == person2Id) = false)
    (hlca : findLcaAndPaths person1Id person2Id allPeople = Option.none) :
    findRelationship person1Id person2Id allPeople =
      some ((findGenericPath person1 person2 allPeople).getD
        (Relationship.none "No relationship path could be found.")) := by
  rw [findRelationship]
  rw [if_neg (by simp [h1, h2, hne])]
  simp only [hp1, hp2, hm, Bool.false_eq_true, if_false]
  simp only [hlca]
  rw [inLawLoop_other allPeople person1Id person1 person2 hg person2.marriages]
  cases hfg : findGenericPath person1 person2 allPeople <;> simp [hfg]

/-- Parent P1 with child D; D is married to X whose gender is Other. -/
def c10P1 : Person := { id := "P1", gender := Gender.Male, childrenIds := ["D"] }

def c10D : Person :=
  { id := "D", gender := Gender.Male, parentIds := ["P1"],
    marriages := [{ spouseId := "X", status := MarriageStatus.Married }] }

def c10X : Person :=
  { id := "X", gender := Gender.Other,
    marriages := [{ spouseId := "D", status := MarriageStatus.Married }] }

def c10People : List Person := [c10P1, c10D, c10X]

theorem C10_other_gender_no_inlaw_witness :
    ("P1" ∈ c10D.parentIds ∧
      c10X.marriages.any (fun m => m.spouseId == "D") = true) ∧
    findRelationship "P1" "X" c10People =
      some ((findGenericPath c10P1 c10X c10People).getD
        (Relationship.none "No relationship path could be found.")) := by
  refine ⟨by decide, ?_⟩
  apply C10_other_gender_no_inlaw c10People "P1" "X" c10P1 c10X
    (by decide) (by decide) (by decide) (by decide) (by decide) (by decide) (by decide)
  simp +decide [findLcaAndPaths, collectAncestorsLoop, lcaSearchLoop, getPathToAncestor,
    bfsPathLoop, processParents, pushUnvisited, getPersonById, List.find?,
    c10P1, c10D, c10X, c10People]

/-- Membership after a JavaScript Set.add: the element was present or is
the added one. -/
theorem mem_setAdd {l : List String} {y x : String} (h : x ∈ setAdd l y) : x ∈ l ∨ x = y := by
  unfold setAdd at h
  split at h
  · exact Or.inl h
  · rcases List.mem_append.mp h with h1 | h2
    · exact Or.inl h1
    · exact Or.inr (List.mem_singleton.mp h2)

/-- Every person emitted by the ancestor walk is a collection member
reachable from the root, given that every queued id is a parent id of
someone already reachable. -/
theorem getAncestorsLoop_connected (allPeople : List Person) (root : Person)
    (queue visited : List String) (ancestors : List Person) :
    (∀ id ∈ queue, ∃ c, Connected allPeople root c ∧ id ∈ c.parentIds) →
    (∀ a ∈ ancestors, a ∈ allPeople ∧ Connected allPeople root a) →
    ∀ a ∈ getAncestorsLoop allPeople queue visited ancestors,
      a ∈ allPeople ∧ Connected allPeople root a := by
  induction queue, visited, ancestors using getAncestorsLoop.induct allPeople with
  | case1 visited ancestors =>
    intro _ hacc
    rw [getAncestorsLoop]
    exact hacc
  | case2 visited ancestors personId rest hskip ih =>
    intro hq hacc
    rw [getAncestorsLoop]
    rw [dif_pos hskip]
    exact ih (fun id hid => hq id (List.mem_cons_of_mem _ hid)) hacc
  | case3 visited ancestors personId rest hskip hlk ih =>
    intro hq hacc
    rw [getAncestorsLoop]
    rw [dif_neg hskip]
    split
    · exact ih (fun id hid => hq id (List.mem_cons_of_mem _ hid)) hacc
    · next q hq2 =>
      rw [hlk] at hq2
      cases hq2
  | case4 visited ancestors personId rest hskip p hlk ih =>
    intro hq hacc
    rw [getAncestorsLoop]
    rw [dif_neg hskip]
    split
    · next hq2 =>
      rw [hlk] at hq2
      cases hq2
    · next q hq2 =>
      rw [hlk] at hq2
      injection hq2 with hq3
      subst hq3
      have hpconn : Connected allPeople root p := by
        rcases hq personId (List.mem_cons_self _ _) with ⟨c, hc, hcid⟩
        refine Relation.ReflTransGen.tail hc ⟨getPersonById_mem hlk, ?_⟩
        unfold edgeRel
        left
        rw [getPersonById_id hlk]
        exact hcid
      apply ih
      · intro id hid
        rcases List.mem_append.mp hid with hid1 | hid2
        · exact hq id (List.mem_cons_of_mem _ hid1)
        · exact ⟨p, hpconn, List.mem_of_mem_filter hid2⟩
      · intro a ha
        rcases List.mem_append.mp ha with ha1 | ha2
        · exact hacc a ha1
        · rw [List.mem_singleton] at ha2
          subst ha2
          exact ⟨getPersonById_mem hlk, hpconn⟩

/-- Every person emitted by the descendant walk is a collection member
reachable from the root, given that every queued id is a child id of
someone already reachable. -/
theorem getDescendantsLoop_connected (allPeople : List Person) (root : Person)
    (queue visited : List String) (descendants : List Person) :
    (∀ id ∈ queue, ∃ c, Connected allPeople root c ∧ id ∈ c.childrenIds) →
    (∀ a ∈ descendants, a ∈ allPeople ∧ Connected allPeople root a) →
    ∀ a ∈ getDescendantsLoop allPeople queue visited descendants,
      a ∈ allPeople ∧ Connected allPeople root a := by
  induction queue, visited, descendants using getDescendantsLoop.induct allPeople with
  | case1 visited descendants =>
    intro _ hacc
    rw [getDescendantsLoop]
    exact hacc
  | case2 visited descendants personId rest hskip ih =>
    intro hq hacc
    rw [getDescendantsLoop]
    rw [dif_pos hskip]
    exact ih (fun id hid => hq id (List.mem_cons_of_mem _ hid)) hacc
  | case3 visited descendants personId rest hskip hlk ih =>
    intro hq hacc
    rw [getDescendantsLoop]
    rw [dif_neg hskip]
    split
    · exact ih (fun id hid => hq id (List.mem_cons_of_mem _ hid)) hacc
    · next q hq2 =>
      rw [hlk] at hq2
      cases hq2
  | case4 visited descendants personId rest hskip p hlk ih =>
    intro hq hacc
    rw [getDescendantsLoop]
    rw [dif_neg hskip]
    split
    · next hq2 =>
      rw [hlk] at hq2
      cases hq2
    · next q hq2 =>
      rw [hlk] at hq2
      injection hq2 with hq3
      subst hq3
      have hpconn : Connected allPeople root p := by
        rcases hq personId (List.mem_cons_self _ _) with ⟨c, hc, hcid⟩
        refine Relation.ReflTransGen.tail hc ⟨getPersonById_mem hlk, ?_⟩
        unfold edgeRel
        right
        left
        rw [getPersonById_id hlk]
        exact hcid
      apply ih
      · intro id hid
        rcases List.mem_append.mp hid with hid1 | hid2
        · exact hq id (List.mem_cons_of_mem _ hid1)
        · exact ⟨p, hpconn, List.mem_of_mem_filter hid2⟩
      · intro a ha
        rcases List.mem_append.mp ha with ha1 | ha2
        · exact hacc a ha1
        · rw [List.mem_singleton] at ha2
          subst ha2
          exact ⟨getPersonById_mem hlk, hpconn⟩

theorem getAncestors_connected {person : Person} {allPeople : List Person} :
    ∀ a ∈ getAncestors person allPeople, a ∈ allPeople ∧ Connected allPeople person a := by
  apply getAncestorsLoop_connected allPeople person person.parentIds [] []
  · intro id hid
    exact ⟨person, connected_refl, hid⟩
  · intro a ha
    cases ha

theorem getDescendants_connected {person : Person} {allPeople : List Person} :
    ∀ a ∈ getDescendants person allPeople, a ∈ allPeople ∧ Connected allPeople person a := by
  apply getDescendantsLoop_connected allPeople person person.childrenIds [] []
  · intro id hid
    exact ⟨person, connected_refl, hid⟩
  · intro a ha
    cases ha

/-- Elements of a fold of Set.add over person ids: already present or
the id of a folded person. -/
theorem foldl_setAdd_mem (ds : List Person) :
    ∀ (acc : List String) (x : String),
      x ∈ ds.foldl (fun a d => setAdd a d.id) acc → x ∈ acc ∨ ∃ d ∈ ds, d.id = x := by
  induction ds with
  | nil =>
    intro acc x hx
    exact Or.inl hx
  | cons d rest ih =>
    intro acc x hx
    rw [List.foldl_cons] at hx
    rcases ih _ x hx with hx1 | ⟨d2, hd2, hid⟩
    · rcases mem_setAdd hx1 with h | h
      · exact Or.inl h
      · exact Or.inr ⟨d, List.mem_cons_self _ _, h.symm⟩
    · exact Or.inr ⟨d2, List.mem_cons_of_mem _ hd2, hid⟩

/-- Every id of the bloodline set is the focal id or the id of a
collection member reachable from the focal person. -/
theorem getAllBloodRelativesIds_sound (focalPerson : Person) (allPeople : List Person) :
    ∀ rid ∈ getAllBloodRelativesIds focalPerson allPeople,
      rid = focalPerson.id ∨
        ∃ r, r ∈ allPeople ∧ r.id = rid ∧ Connected allPeople focalPerson r := by
  have main : ∀ (progs : List Person),
      (∀ p ∈ progs, p = focalPerson ∨ (p ∈ allPeople ∧ Connected allPeople focalPerson p)) →
      ∀ (acc : List String),
      (∀ x ∈ acc, x = focalPerson.id ∨
        ∃ r, r ∈ allPeople ∧ r.id = x ∧ Connected allPeople focalPerson r) →
      ∀ x ∈ progs.foldl
        (fun acc2 progenitor =>
          (getDescendants progenitor allPeople).foldl
            (fun acc3 descendant => setAdd acc3 descendant.id)
            (setAdd acc2 progenitor.id)) acc,
        x = focalPerson.id ∨
          ∃ r, r ∈ allPeople ∧ r.id = x ∧ Connected allPeople focalPerson r := by
    intro progs
    induction progs with
    | nil =>
      intro _ acc hacc x hx
      exact hacc x hx
    | cons p rest ih =>
      intro hprog acc hacc x hx
      rw [List.foldl_cons] at hx
      apply ih (fun q hq => hprog q (List.mem_cons_of_mem _ hq)) _ ?_ x hx
      intro y hy
      rcases foldl_setAdd_mem _ _ y hy with hy1 | ⟨d, hd, hid⟩
      · rcases mem_setAdd hy1 with h | h
        · exact hacc y h
        · rcases hprog p (List.mem_cons_self _ _) with rfl | ⟨hpm, hpc⟩
          · exact Or.inl h
          · exact Or.inr ⟨p, hpm, h.symm, hpc⟩
      · have hdc := getDescendants_connected d hd
        rcases hprog p (List.mem_cons_self _ _) with rfl | ⟨_, hpc⟩
        · exact Or.inr ⟨d, hdc.1, hid, hdc.2⟩
        · exact Or.inr ⟨d, hdc.1, hid, connected_trans hpc hdc.2⟩
  intro rid hrid
  unfold getAllBloodRelativesIds at hrid
  apply main (focalPerson :: getAncestors focalPerson allPeople) ?_ [] ?_ rid hrid
  · intro p hp
    rcases List.mem_cons.mp hp with rfl | hp2
    · exact Or.inl rfl
    · exact Or.inr (getAncestors_connected p hp2)
  · intro x hx
    cases hx

/-- A successful LCA search connects the two looked-up endpoints through
the collection. -/
theorem findLcaAndPaths_connected {person1Id person2Id : String} {allPeople : List Person}
    {r : LcaResult} (h : findLcaAndPaths person1Id person2Id allPeople = some r) :
    ∃ q1 q2, getPersonById person1Id allPeople = some q1 ∧
      getPersonById person2Id allPeople = some q2 ∧ Connected allPeople q1 q2 := by
  rcases findLcaAndPaths_sound h with ⟨_, hpa1, hpa2⟩
  rcases getPathToAncestor_sound hpa1 with
    ⟨sp1, hsp1, _, hch1, hhd1, hmem1, ep1, hep1, _, hlast1⟩
  rcases getPathToAncestor_sound hpa2 with
    ⟨sp2, hsp2, _, hch2, hhd2, hmem2, ep2, hep2, _, hlast2⟩
  have hstep : ∀ x y : Person, parentStep x y → edgeRel x y := by
    intro x y hxy
    unfold parentStep at hxy
    unfold edgeRel
    exact Or.inl hxy
  have hc1 : Connected allPeople sp1 ep1 := connected_of_chain hstep hch1 hmem1 hhd1 hlast1
  have hc2 : Connected allPeople sp2 ep2 := connected_of_chain hstep hch2 hmem2 hhd2 hlast2
  have hee : ep1 = ep2 := by
    rw [hep1] at hep2
    exact Option.some.inj hep2
  refine ⟨sp1, sp2, hsp1, hsp2, connected_trans hc1 ?_⟩
  rw [hee]
  exact connected_symm hc2 (getPersonById_mem hsp2)

/-- A hit of the in-law loop exhibits a marriage of person 2 whose
spouse exists and has a successful LCA search from person 1. -/
theorem inLawLoop_found (allPeople : List Person) (person1Id : String)
    (person1 person2 : Person) :
    ∀ ms rel, inLawLoop allPeople person1Id person1 person2 ms = some rel →
      ∃ m, m ∈ ms ∧ ∃ sp, getPersonById m.spouseId allPeople = some sp ∧
        ∃ br, findLcaAndPaths person1Id sp.id allPeople = some br := by
  intro ms
  induction ms with
  | nil =>
    intro rel h
    cases h
  | cons m rest ih =>
    intro rel h
    rcases hsp : getPersonById m.spouseId allPeople with _ | sp
    · simp only [inLawLoop, hsp] at h
      rcases ih rel h with ⟨m2, hm2, rest2⟩
      exact ⟨m2, List.mem_cons_of_mem _ hm2, rest2⟩
    · rcases hbr : findLcaAndPaths person1Id sp.id allPeople with _ | br
      · simp only [inLawLoop, hsp, hbr] at h
        rcases ih rel h with ⟨m2, hm2, rest2⟩
        exact ⟨m2, List.mem_cons_of_mem _ hm2, rest2⟩
      · exact ⟨m, List.mem_cons_self _ _, sp, hsp, br, hbr⟩

/-- Every hit of the generic-path BFS reaches a collection member whose
id is the target, connected to the start person, provided every queued
path ends at a reachable member carrying the queued id. -/
theorem genericPathLoop_sound (allPeople : List Person) (targetId : String) (sp : Person)
    (queue : List (String × List Person)) (visited : List String) :
    (∀ it ∈ queue, ∃ lastP, it.2.getLast? = some lastP ∧ lastP.id = it.1 ∧
      lastP ∈ allPeople ∧ Connected allPeople sp lastP) →
    ∀ rel, genericPathLoop allPeople targetId queue visited = some rel →
      ∃ lastP, lastP.id = targetId ∧ lastP ∈ allPeople ∧ Connected allPeople sp lastP := by
  induction queue, visited using genericPathLoop.induct allPeople targetId with
  | case1 visited =>
    intro _ rel h
    rw [genericPathLoop] at h
    cases h
  | case2 visited path rest =>
    intro hinv rel _
    rcases hinv (targetId, path) (List.mem_cons_self _ _) with ⟨lastP, _, hid, hmem, hconn⟩
    exact ⟨lastP, hid, hmem, hconn⟩
  | case3 visited personId path rest hne ih =>
    intro hinv rel h
    rw [genericPathLoop] at h
    rw [if_neg hne] at h
    apply ih ?_ rel h
    intro it hit
    rcases List.mem_append.mp hit with hit1 | hit2
    · exact hinv it (List.mem_cons_of_mem _ hit1)
    · have hfacts := processNeighbors_adds it hit2
      rcases hfacts.2.2.2 with ⟨np, hnp, hpath⟩
      rcases hinv (personId, path) (List.mem_cons_self _ _) with
        ⟨lastP, hlast, _, _, hconn⟩
      refine ⟨np, ?_, getPersonById_id hnp, getPersonById_mem hnp, ?_⟩
      · rw [hpath]
        exact List.getLast?_concat _
      · refine Relation.ReflTransGen.tail hconn ⟨getPersonById_mem hnp, ?_⟩
        have hin : it.1 ∈ pathNbrIds path := hfacts.1
        simp only [pathNbrIds, hlast] at hin
        rw [← getPersonById_id hnp] at hin
        unfold edgeRel
        simp only [neighborIds, List.mem_append] at hin
        rcases hin with (h1 | h2) | h3
        · exact Or.inl h1
        · exact Or.inr (Or.inl h2)
        · exact Or.inr (Or.inr (Or.inl h3))

/-- A successful generic path search connects person 1 to a collection
member carrying the id of person 2. -/
theorem findGenericPath_connected {person1 person2 : Person} {allPeople : List Person}
    {rel : Relationship} (hmem1 : person1 ∈ allPeople)
    (h : findGenericPath person1 person2 allPeople = some rel) :
    ∃ lastP, lastP.id = person2.id ∧ lastP ∈ allPeople ∧
      Connected allPeople person1 lastP := by
  apply genericPathLoop_sound allPeople person2.id person1
    [(person1.id, [person1])] [person1.id] ?_ rel h
  intro it hit
  rw [List.mem_singleton] at hit
  subst hit
  exact ⟨person1, rfl, rfl, hmem1, connected_refl⟩

/-- With unique ids and no connection between the two looked-up people,
every branch of findRelationship before the final fallback fails, so the
fixed none relationship is returned. -/
theorem findRelationship_disconnected (allPeople : List Person)
    (person1Id person2Id : String) (person1 person2 : Person)
    (hnodup : (allPeople.map Person.id).Nodup)
    (h1 : person1Id ≠ "") (h2 : person2Id ≠ "") (hne : person1Id ≠ person2Id)
    (hp1 : getPersonById person1Id allPeople = some person1)
    (hp2 : getPersonById person2Id allPeople = some person2)
    (hnc : ¬ Connected allPeople person1 person2) :
    findRelationship person1Id person2Id allPeople =
      some (Relationship.none "No relationship path could be found.") := by
  have hm : person1.marriages.any (fun m => m.spouseId == person2Id) = false := by
    cases hb : person1.marriages.any (fun m => m.spouseId == person2Id) with
    | false => rfl
    | true =>
      exfalso
      apply hnc
      rw [List.any_eq_true] at hb
      rcases hb with ⟨m, hm2, hmeq⟩
      have hmeq2 : m.spouseId = person2Id := by simpa using hmeq
      refine Relation.ReflTransGen.single ⟨getPersonById_mem hp2, ?_⟩
      unfold edgeRel
      right
      right
      left
      unfold spouseIdsOf
      rw [getPersonById_id hp2, ← hmeq2]
      exact List.mem_map.mpr ⟨m, hm2, rfl⟩
  have hlca : findLcaAndPaths person1Id person2Id allPeople = Option.none := by
    cases hl : findLcaAndPaths person1Id person2Id allPeople with
    | none => rfl
    | some r =>
      exfalso
      rcases findLcaAndPaths_connected hl with ⟨q1, q2, hq1, hq2, hconn⟩
      rw [hp1] at hq1
      rw [hp2] at hq2
      rw [Option.some.inj hq1, Option.some.inj hq2] at hnc
      exact hnc hconn
  have hil : inLawLoop allPeople person1Id person1 person2 person2.marriages =
      Option.none := by
    cases hl : inLawLoop allPeople person1Id person1 person2 person2.marriages with
    | none => rfl
    | some rel =>
      exfalso
      rcases inLawLoop_found allPeople person1Id person1 person2 person2.marriages rel hl
        with ⟨m, hm2, sp, hsp, br, hbr⟩
      rcases findLcaAndPaths_connected hbr with ⟨q1, q2, hq1, hq2, hconn⟩
      rw [hp1] at hq1
      have hsp2 : getPersonById sp.id allPeople = some sp := by
        rw [getPersonById_id hsp]
        exact hsp
      rw [hsp2] at hq2
      rw [Option.some.inj hq1] at hnc
      apply hnc
      have hconn2 : Connected allPeople q1 sp := by
        rw [← Option.some.inj hq2] at hconn
        exact hconn
      have hedge : edgeRel sp person2 := by
        unfold edgeRel
        right
        right
        right
        right
        right
        unfold spouseIdsOf
        rw [getPersonById_id hsp]
        exact List.mem_map.mpr ⟨m, hm2, rfl⟩
      exact Relation.ReflTransGen.tail hconn2 ⟨getPersonById_mem hp2, hedge⟩
  have hfg : findGenericPath person1 person2 allPeople = Option.none := by
    cases hg : findGenericPath person1 person2 allPeople with
    | none => rfl
    | some rel =>
      exfalso
      rcases findGenericPath_connected (getPersonById_mem hp1) hg with
        ⟨lastP, hlid, hlmem, hlconn⟩
      have ha := getPersonById_of_nodup hnodup hlmem
      rw [hlid] at ha
      have hb := getPersonById_of_nodup hnodup (getPersonById_mem hp2)
      rw [ha] at hb
      rw [Option.some.inj hb] at hlconn
      exact hnc hlconn
  rw [findRelationship]
  rw [if_neg (by simp [h1, h2, hne])]
  simp only [hp1, hp2, hm, Bool.false_eq_true, if_false]
  simp only [hlca]
  simp only [hil]
  simp only [hfg]

/-- With unique ids and no connection between the two people, the
alternative-marriage step of findAllRelationships never adds anything:
the relative is person 1 itself or a connected member that cannot be
married to person 2. -/
theorem inLawRelStep_disconnected (allPeople : List Person)
    (person1Id person2Id : String) (person1 person2 : Person)
    (hnodup : (allPeople.map Person.id).Nodup)
    (hp1 : getPersonById person1Id allPeople = some person1)
    (hp2 : getPersonById person2Id allPeople = some person2)
    (hnc : ¬ Connected allPeople person1 person2) (rid : String)
    (hrid : rid = person1.id ∨
      ∃ r, r ∈ allPeople ∧ r.id = rid ∧ Connected allPeople person1 r) :
    ∀ acc, inLawRelStep allPeople person1Id person2Id person2 acc rid = acc := by
  intro acc
  rcases hrid with rfl | ⟨r, hrmem, hrid2, hrconn⟩
  · have hlk : getPersonById person1.id allPeople = some person1 := by
      rw [getPersonById_id hp1]
      exact hp1
    simp only [inLawRelStep, hlk]
    have hncond : ¬(person1.id ≠ person1Id ∧
        person1.marriages.any (fun m => m.spouseId == person2Id) = true) :=
      fun hcond => hcond.1 (getPersonById_id hp1)
    rw [if_neg hncond]
  · have hlk : getPersonById rid allPeople = some r := by
      rw [← hrid2]
      exact getPersonById_of_nodup hnodup hrmem
    simp only [inLawRelStep, hlk]
    have hmf : r.marriages.any (fun m => m.spouseId == person2Id) = false := by
      cases hb : r.marriages.any (fun m => m.spouseId == person2Id) with
      | false => rfl
      | true =>
        exfalso
        apply hnc
        rw [List.any_eq_true] at hb
        rcases hb with ⟨m, hm2, hmeq⟩
        have hmeq2 : m.spouseId = person2Id := by simpa using hmeq
        refine connected_trans hrconn
          (Relation.ReflTransGen.single ⟨getPersonById_mem hp2, ?_⟩)
        unfold edgeRel
        right
        right
        left
        unfold spouseIdsOf
        rw [getPersonById_id hp2, ← hmeq2]
        exact List.mem_map.mpr ⟨m, hm2, rfl⟩
    have hncond : ¬(r.id ≠ person1Id ∧
        r.marriages.any (fun m => m.spouseId == person2Id) = true) := by
      intro hcond
      rw [hmf] at hcond
      exact Bool.false_ne_true hcond.2
    rw [if_neg hncond]

/-- C7: for two distinct existing people of a collection with unique ids
that are not connected by any chain of parent, child or spouse edges,
findRelationship returns the none relationship with the fixed message and
findAllRelationships returns exactly that relationship as a singleton
list. -/
theorem C7_disconnected_reports_none (allPeople : List Person)
    (person1Id person2Id : String) (person1 person2 : Person)
    (hnodup : (allPeople.map Person.id).Nodup)
    (h1 : person1Id ≠ "") (h2 : person2Id ≠ "") (hne : person1Id ≠ person2Id)
    (hp1 : getPersonById person1Id allPeople = some person1)
    (hp2 : getPersonById person2Id allPeople = some person2)
    (hnc : ¬ Connected allPeople person1 person2) :
    findRelationship person1Id person2Id allPeople =
      some (Relationship.none "No relationship path could be found.") ∧
    findAllRelationships person1Id person2Id allPeople =
      [Relationship.none "No relationship path could be found."] := by
  have hfr := findRelationship_disconnected allPeople person1Id person2Id person1 person2
    hnodup h1 h2 hne hp1 hp2 hnc
  refine ⟨hfr, ?_⟩
  rw [findAllRelationships]
  simp only [hp1, hp2]
  rw [if_neg hne]
  simp only [hfr]
  have haddnone :
      addRelationship [] (Relationship.none "No relationship path could be found.") = [] :=
    rfl
  rw [haddnone]
  have hfold : ∀ (ids : List String),
      (∀ rid ∈ ids, ∀ acc,
        inLawRelStep allPeople person1Id person2Id person2 acc rid = acc) →
      ∀ acc, ids.foldl (inLawRelStep allPeople person1Id person2Id person2) acc = acc := by
    intro ids
    induction ids with
    | nil =>
      intro _ acc
      rfl
    | cons i rest ih =>
      intro h acc
      rw [List.foldl_cons, h i (List.mem_cons_self _ _) acc]
      exact ih (fun rid hr => h rid (List.mem_cons_of_mem _ hr)) acc
  have hsteps : ∀ rid ∈ getAllBloodRelativesIds person1 allPeople, ∀ acc,
      inLawRelStep allPeople person1Id person2Id person2 acc rid = acc := by
    intro rid hrid acc
    exact inLawRelStep_disconnected allPeople person1Id person2Id person1 person2
      hnodup hp1 hp2 hnc rid (getAllBloodRelativesIds_sound person1 allPeople rid hrid) acc
  rw [hfold (getAllBloodRelativesIds person1 allPeople) hsteps []]
  rw [if_pos rfl]

/-- Two singleton records with no family or marriage links at all. -/
def c7A : Person := { id := "A", gender := Gender.Male }

def c7B : Person := { id := "B", gender := Gender.Female }

def c7People : List Person := [c7A, c7B]

theorem C7_disconnected_reports_none_witness :
    findRelationship "A" "B" c7People =
      some (Relationship.none "No relationship path could be found.") ∧
    findAllRelationships "A" "B" c7People =
      [Relationship.none "No relationship path could be found."] := by
  apply C7_disconnected_reports_none c7People "A" "B" c7A c7B
    (by decide) (by decide) (by decide) (by decide) (by decide) (by decide)
  intro h
  rcases Relation.ReflTransGen.cases_head h with heq | ⟨c, ⟨hcmem, hedge⟩, _⟩
  · exact absurd heq (by decide)
  · have hc : c = c7A ∨ c = c7B := by
      simpa [c7People] using hcmem
    rcases hc with rfl | rfl
    · exact absurd hedge (by decide)
    · exact absurd hedge (by decide)
